import Mathlib

/-!
Shallow embedding of the `pine` AST-to-bytecode compiler
(`src/compiler/src/lib.rs`) together with the AST it consumes
(`src/parser/src/ast.rs`) and the runtime value type
(`src/src/object/mod.rs`).

Modelling conventions:
* machine bytes are `Nat`s (every byte written is already reduced `% 256`
  by the encoder);
* the `Token` metadata fields of the AST are dropped: the compiler only
  ever reads an operator token as its string (`operator.as_str()`), so
  operator fields become `String`; all other token fields are never read;
* `Rc` sharing is dropped (values are compared structurally, exactly as
  the Rust `PartialEq` derives do);
* the `f64` payload of a float literal is dropped: the compiler rejects
  float literals without ever inspecting the value;
* Rust methods taking `&mut self` become functions `Compiler -> ... ->
  Compiler` (possibly paired with the method's return value); `?`-style
  error propagation becomes explicit matching on an `Option CompErr`
  error component, keeping the partially mutated state, exactly as the
  caller of the Rust method keeps the partially mutated `self` when the
  method returns `Err`.
-/

namespace Pine

abbrev Str := String

/-- Modelled from the spec: the `opcode` crate is not among the provided
sources.  §3 of the spec describes a fixed, closed opcode enumeration
(push-constant, pop, add, subtract, multiply, divide, greater-than,
equal, not-equal, boolean-true, boolean-false, logical-negate,
arithmetic-negate, jump, jump-if-not-truthy); the variant names follow
their uses in `compiler/src/lib.rs` (`Opcode::OpConst`, `OpPop`, ...). -/
inductive Opcode where
  | OpConst
  | OpPop
  | OpAdd
  | OpSub
  | OpMul
  | OpDiv
  | OpGreaterThan
  | OpEqual
  | OpNotEqual
  | OpTrue
  | OpFalse
  | OpBang
  | OpMinus
  | OpJump
  | OpJumpNotTruthy
deriving DecidableEq, Repr, Inhabited

/-- Modelled from the spec: the discriminant byte of each opcode
(`Opcode::from(u8)` / the leading byte written by `opcode::make`).  The
concrete numbering is not recoverable from the provided sources; any
injective assignment works for every property proved below. -/
def opByte : Opcode → Nat
  | .OpConst => 0
  | .OpPop => 1
  | .OpAdd => 2
  | .OpSub => 3
  | .OpMul => 4
  | .OpDiv => 5
  | .OpGreaterThan => 6
  | .OpEqual => 7
  | .OpNotEqual => 8
  | .OpTrue => 9
  | .OpFalse => 10
  | .OpBang => 11
  | .OpMinus => 12
  | .OpJump => 13
  | .OpJumpNotTruthy => 14

/-- Modelled from the spec: `decode_opcode(byte) -> Opcode`
(`Opcode::from(u8)`), the inverse of `opByte` on valid opcode bytes;
the behaviour on a byte that is no opcode's discriminant is not
observable in any verified flow, a default is returned. -/
def byteToOpcode : Nat → Opcode
  | 0 => .OpConst
  | 1 => .OpPop
  | 2 => .OpAdd
  | 3 => .OpSub
  | 4 => .OpMul
  | 5 => .OpDiv
  | 6 => .OpGreaterThan
  | 7 => .OpEqual
  | 8 => .OpNotEqual
  | 9 => .OpTrue
  | 10 => .OpFalse
  | 11 => .OpBang
  | 12 => .OpMinus
  | 13 => .OpJump
  | 14 => .OpJumpNotTruthy
  | _ => .OpConst

/-- Modelled from the spec: per-operand byte widths, known statically from
the opcode alone (§3, §4.1).  The three operand-carrying opcodes
(push-constant, jump, jump-if-not-truthy) each take one two-byte
operand; every other opcode takes none. -/
def operandWidths : Opcode → List Nat
  | .OpConst => [2]
  | .OpJump => [2]
  | .OpJumpNotTruthy => [2]
  | _ => []

/-- Big-endian byte image of `v` in `w` bytes (§4.1: operands are encoded
big-endian). -/
def beBytes : Nat → Nat → List Nat
  | 0, _ => []
  | w + 1, v => v / 256 ^ w % 256 :: beBytes w v

def encodeOperands : List Nat → List Nat → List Nat
  | w :: ws, v :: vs => beBytes w v ++ encodeOperands ws vs
  | _, _ => []

/-- Modelled from the spec: `opcode::make(op, operands)` — the opcode's
discriminant byte followed by each operand encoded big-endian in its
declared width (§4.1). -/
def make (op : Opcode) (operands : List Nat) : List Nat :=
  opByte op :: encodeOperands (operandWidths op) operands

/-- Total encoded size in bytes of an instruction with opcode `op`. -/
def instrSize (op : Opcode) : Nat :=
  1 + (operandWidths op).foldl (· + ·) 0

/-- `opcode::Instructions` — a byte vector (`Vec<u8>`). -/
abbrev Instructions := List Nat

mutual

/-- `parser::ast::Literal` (`src/parser/src/ast.rs`).  The `f64` payload
of `Float` is dropped (never read by the compiler); `Token` fields are
dropped throughout. -/
inductive Literal where
  | Integer (value : Int)
  | Float
  | Boolean (value : Bool)
  | String (value : Str)
  | Array (elements : List Expression)

/-- `parser::ast::Expression`.  A `BlockStatement` is represented by its
statement list (its only non-token field). -/
inductive Expression where
  | Identifier (value : Str)
  | Literal (l : Literal)
  | Infix (left : Expression) (operator : Str) (right : Expression)
  | Prefix (operator : Str) (right : Expression)
  | If (condition : Expression) (consequence : List Statement)
       (alternative : Option (List Statement))
  | Function (parameters : List Str) (body : List Statement)
  | Call (function : Expression) (arguments : List Expression)
  | Index (left : Expression) (index : Expression)

/-- `parser::ast::Statement`. -/
inductive Statement where
  | Assign (name : Str) (value : Expression)
  | Expr (e : Expression)
  | Return (return_value : Expression)

end

/-- `parser::ast::BlockStatement`, reduced to its statement list. -/
abbrev BlockStatement := List Statement

/-- `parser::ast::Program`. -/
structure Program where
  statements : List Statement

/-- `parser::ast::Node`. -/
inductive Node where
  | Expression (e : Pine.Expression)
  | Program (p : Pine.Program)
  | Statement (s : Pine.Statement)

/-- `object::Object` (`src/src/object/mod.rs`).  `Rc` sharing is dropped;
the `Env` of a function value is not among the provided sources and is
never touched by the compiler, it is modelled as `Unit`. -/
inductive Object where
  | Integer (value : Int)
  | Boolean (value : Bool)
  | String (value : Str)
  | Function (parameters : List Str) (body : BlockStatement) (env : Unit)
  | Return (value : Object)
  | Array (elements : List Object)
  | Null

/-- `Bytecode` (`src/compiler/src/lib.rs`). -/
structure Bytecode where
  instructions : Instructions
  constants : List Object

/-- `EmittedInstruction` (`src/compiler/src/lib.rs`). -/
structure EmittedInstruction where
  opcode : Opcode
  position : Nat
deriving DecidableEq, Repr

/-- `Compiler` (`src/compiler/src/lib.rs`). -/
structure Compiler where
  instructions : Instructions
  constants : List Object
  last_instruction : Option EmittedInstruction
  previous_instruction : Option EmittedInstruction

/-- The two `anyhow::Error::msg(..)` messages produced by the compiler. -/
inductive CompErr where
  | unimplementedStatement
  | unimplementedExpression
deriving DecidableEq, Repr

/-- `Compiler::new`. -/
def Compiler.new : Compiler :=
  { instructions := []
    constants := []
    last_instruction := none
    previous_instruction := none }

/-- `Compiler::add_constant`: push the value and return
`constants.len() - 1`. -/
def Compiler.add_constant (c : Compiler) (obj : Object) : Compiler × Nat :=
  let constants := c.constants ++ [obj]
  ({ c with constants := constants }, constants.length - 1)

/-- `Compiler::add_instructions`: append and return the old length. -/
def Compiler.add_instructions (c : Compiler) (ins : Instructions) :
    Compiler × Nat :=
  ({ c with instructions := c.instructions ++ ins }, c.instructions.length)

/-- The byte-overwriting loop of `Compiler::replace_instruction`. -/
def writeBytes (l : List Nat) (position : Nat) : List Nat → List Nat
  | [] => l
  | b :: bs => writeBytes (l.set position b) (position + 1) bs

/-- `Compiler::replace_instruction`.  The Rust indexing panics out of
bounds; `List.set` is a no-op there — every verified call writes in
bounds, as `change_operand_spec` requires. -/
def Compiler.replace_instruction (c : Compiler) (position : Nat)
    (new_instruction : Instructions) : Compiler :=
  { c with instructions := writeBytes c.instructions position new_instruction }

/-- `Compiler::change_operand`: re-encode the instruction whose opcode
byte sits at `position` with the new operand, in place.  The Rust
indexing `self.instructions.0[position]` panics out of bounds; `getD`
defaults there — every verified call reads in bounds. -/
def Compiler.change_operand (c : Compiler) (position operand : Nat) :
    Compiler :=
  let op := byteToOpcode (c.instructions.getD position 0)
  let new_instruction := make op [operand]
  c.replace_instruction position new_instruction

/-- `Compiler::set_last_instruction`. -/
def Compiler.set_last_instruction (c : Compiler) (op : Opcode)
    (position : Nat) : Compiler :=
  { c with
    previous_instruction := c.last_instruction
    last_instruction := some { opcode := op, position := position } }

/-- `Compiler::emit`. -/
def Compiler.emit (c : Compiler) (op : Opcode) (operands : List Nat) :
    Compiler × Nat :=
  let instructions := make op operands
  let (c1, index) := c.add_instructions instructions
  (c1.set_last_instruction op index, index)

/-- `Compiler::bytecode`. -/
def Compiler.bytecode (c : Compiler) : Bytecode :=
  { instructions := c.instructions, constants := c.constants }

/-- `Compiler::last_instruction_is`. -/
def Compiler.last_instruction_is (c : Compiler) (op : Opcode) : Bool :=
  match c.last_instruction with
  | some instruction => instruction.opcode == op
  | none => false

/-- `Compiler::remove_last_pop`: `self.instructions.0.pop()` and restore
the previous record as last. -/
def Compiler.remove_last_pop (c : Compiler) : Compiler :=
  { c with
    instructions := c.instructions.dropLast
    last_instruction := c.previous_instruction }

/-- The inline retraction step of the `If` arm of
`Compiler::compile_expression` (it appears twice, once after the
consequence and once after the alternative):
`if self.last_instruction_is(Opcode::OpPop) { self.remove_last_pop(); }`. -/
def Compiler.retractIfPop (c : Compiler) : Compiler :=
  if c.last_instruction_is .OpPop then c.remove_last_pop else c

/-- The `?` operator of the Rust sources, as used on
`compile_expression` / `compile_statement` calls: an `Err` is returned
to the caller immediately (the partially mutated compiler state is
kept), otherwise compilation continues from the new state. -/
def seqComp (r : Compiler × Option CompErr)
    (f : Compiler → Compiler × Option CompErr) : Compiler × Option CompErr :=
  match r with
  | (c1, some err) => (c1, some err)
  | (c1, none) => f c1

mutual

/-- `Compiler::compile_expression`.  The two `dbg!` calls in the `If` arm
are pass-through debug prints and have no effect on the state; `emit`
both advances the state and returns the emitted position, so its one
Rust call appears here as the two projections of the same pure call. -/
def compileExpression (c : Compiler) : Expression → Compiler × Option CompErr
  -- (the Rust `If` arm tests `alternative.is_none()` once, after the
  -- shared prefix; here the two cases of that test are two arms whose
  -- shared prefix is written twice, which is the same function)
  | .If condition consequence none =>
    seqComp (compileExpression c condition) fun c1 =>
      -- dummy value that will be overwritten later
      let jnt_position := (c1.emit .OpJumpNotTruthy [9999]).2
      let c2 := (c1.emit .OpJumpNotTruthy [9999]).1
      seqComp (compileStatements c2 consequence) fun c3 =>
        let c4 := c3.retractIfPop
        let j_position := (c4.emit .OpJump [9999]).2
        let c5 := (c4.emit .OpJump [9999]).1
        let after_consequence_position := c5.instructions.length
        let c6 := c5.change_operand jnt_position after_consequence_position
        let after_consequence_position' := c6.instructions.length
        let c7 := c6.change_operand jnt_position after_consequence_position'
        let after_alternative_position := c7.instructions.length
        (c7.change_operand j_position after_alternative_position, none)
  | .If condition consequence (some alt) =>
    seqComp (compileExpression c condition) fun c1 =>
      -- dummy value that will be overwritten later
      let jnt_position := (c1.emit .OpJumpNotTruthy [9999]).2
      let c2 := (c1.emit .OpJumpNotTruthy [9999]).1
      seqComp (compileStatements c2 consequence) fun c3 =>
        let c4 := c3.retractIfPop
        let j_position := (c4.emit .OpJump [9999]).2
        let c5 := (c4.emit .OpJump [9999]).1
        let after_consequence_position := c5.instructions.length
        let c6 := c5.change_operand jnt_position after_consequence_position
        seqComp (compileStatements c6 alt) fun c7 =>
          let c8 := c7.retractIfPop
          let after_alternative_position := c8.instructions.length
          (c8.change_operand j_position after_alternative_position, none)
  | .Infix left operator right =>
    -- `Compiler::compile_operands` inlined at its single call site so the
    -- recursion stays structural; `compileOperands` below is the
    -- stand-alone helper and `compileOperands_def` ties the two together.
    seqComp
      (if operator = "<" then
        seqComp (compileExpression c right) fun cr =>
          compileExpression cr left
      else
        seqComp (compileExpression c left) fun cl =>
          compileExpression cl right)
      fun c1 =>
        if operator = "+" then ((c1.emit .OpAdd []).1, none)
        else if operator = "-" then ((c1.emit .OpSub []).1, none)
        else if operator = "*" then ((c1.emit .OpMul []).1, none)
        else if operator = "/" then ((c1.emit .OpDiv []).1, none)
        else if operator = ">" then ((c1.emit .OpGreaterThan []).1, none)
        else if operator = "<" then ((c1.emit .OpGreaterThan []).1, none)
        else if operator = "==" then ((c1.emit .OpEqual []).1, none)
        else if operator = "!=" then ((c1.emit .OpNotEqual []).1, none)
        else (c1, some .unimplementedExpression)
  | .Prefix operator right =>
    seqComp (compileExpression c right) fun c1 =>
      if operator = "!" then ((c1.emit .OpBang []).1, none)
      else if operator = "-" then ((c1.emit .OpMinus []).1, none)
      else (c1, some .unimplementedExpression)
  | .Literal (.Boolean true) => ((c.emit .OpTrue []).1, none)
  | .Literal (.Boolean false) => ((c.emit .OpFalse []).1, none)
  | .Literal (.Integer value) =>
    let integer := Object.Integer value
    let c1 := (c.add_constant integer).1
    let constant := (c.add_constant integer).2
    ((c1.emit .OpConst [constant]).1, none)
  | .Literal .Float => (c, some .unimplementedExpression)
  | .Literal (.String _) => (c, some .unimplementedExpression)
  | .Literal (.Array _) => (c, some .unimplementedExpression)
  | .Identifier _ => (c, some .unimplementedExpression)
  | .Function _ _ => (c, some .unimplementedExpression)
  | .Call _ _ => (c, some .unimplementedExpression)
  | .Index _ _ => (c, some .unimplementedExpression)

/-- `Compiler::compile_statement`. -/
def compileStatement (c : Compiler) : Statement → Compiler × Option CompErr
  | .Return r => compileExpression c r
  | .Expr e =>
    seqComp (compileExpression c e) fun c1 => ((c1.emit .OpPop []).1, none)
  | .Assign _ _ => (c, some .unimplementedStatement)

/-- `Compiler::compile_block_statement` and the statement loop of
`Compiler::compile` on a program node: compile each statement in order,
stopping at the first error. -/
def compileStatements (c : Compiler) : List Statement →
    Compiler × Option CompErr
  | [] => (c, none)
  | s :: rest =>
    seqComp (compileStatement c s) fun c1 => compileStatements c1 rest

end

/-- `Compiler::compile_operands`: for `<` the operands are compiled
right-then-left, otherwise left-then-right. -/
def compileOperands (c : Compiler) (left right : Expression)
    (operator : Str) : Compiler × Option CompErr :=
  if operator = "<" then
    seqComp (compileExpression c right) fun c1 =>
      compileExpression c1 left
  else
    seqComp (compileExpression c left) fun c1 =>
      compileExpression c1 right

/-- `Compiler::compile`: dispatch on the node shape and, on success,
return `self.bytecode()`; on failure the error is returned and the
partially mutated compiler state is kept. -/
def Compiler.compile (c : Compiler) (node : Node) :
    Compiler × Except CompErr Bytecode :=
  match node with
  | .Program p =>
    match compileStatements c p.statements with
    | (c1, some err) => (c1, .error err)
    | (c1, none) => (c1, .ok c1.bytecode)
  | .Statement s =>
    match compileStatement c s with
    | (c1, some err) => (c1, .error err)
    | (c1, none) => (c1, .ok c1.bytecode)
  | .Expression e =>
    match compileExpression c e with
    | (c1, some err) => (c1, .error err)
    | (c1, none) => (c1, .ok c1.bytecode)

/-! ### The emitted-instruction invariant

`lastFits` states that the recorded last emitted instruction really sits
at the end of the stream: its opcode byte is stored at its recorded
position and its encoded bytes extend exactly to the stream's end.
`prevOkWhenPop` states that whenever the recorded last instruction is the
one-byte discard (`OpPop`), the previous record is present, is not itself
a discard, and sits immediately before the discard — exactly what
`remove_last_pop` relies on to retract the discard and leave a truthful
“last” record behind. -/

def lastFits (l : Instructions) (o : Option EmittedInstruction) : Prop :=
  ∀ e, o = some e →
    e.position + instrSize e.opcode = l.length ∧
      l[e.position]? = some (opByte e.opcode)

def prevOkWhenPop (c : Compiler) : Prop :=
  ∀ e, c.last_instruction = some e → e.opcode = .OpPop →
    ∃ p, c.previous_instruction = some p ∧ p.opcode ≠ .OpPop ∧
      p.position + instrSize p.opcode = e.position ∧
      c.instructions[p.position]? = some (opByte p.opcode)

def Inv (c : Compiler) : Prop :=
  lastFits c.instructions c.last_instruction ∧ prevOkWhenPop c

/-- Post-state relation of a successful `compile_expression` call: the
invariant still holds, the old bytes and the old constants survive as
prefixes, and the recorded last instruction is a freshly emitted
non-discard instruction ending exactly at the stream's end. -/
def ExprPost (c c' : Compiler) : Prop :=
  Inv c' ∧ c.instructions <+: c'.instructions ∧ c.constants <+: c'.constants ∧
    ∃ e', c'.last_instruction = some e' ∧ e'.opcode ≠ .OpPop ∧
      c.instructions.length ≤ e'.position ∧
      e'.position + instrSize e'.opcode = c'.instructions.length

/-- Post-state relation of a successful `compile_statement` call.  The
last instruction may be the trailing discard of an expression statement;
in that case the previous record was also emitted inside the call. -/
def StmtPost (c c' : Compiler) : Prop :=
  Inv c' ∧ c.instructions <+: c'.instructions ∧ c.constants <+: c'.constants ∧
    ∃ e', c'.last_instruction = some e' ∧
      c.instructions.length ≤ e'.position ∧
      e'.position + instrSize e'.opcode = c'.instructions.length ∧
      (e'.opcode = .OpPop → ∃ p, c'.previous_instruction = some p ∧
        c.instructions.length ≤ p.position)

/-- Post-state relation of a successful statement-list compilation
(`compile_block_statement`, and the loop of `compile` on a program). -/
def ListPost (c c' : Compiler) : Prop :=
  Inv c' ∧ c.instructions <+: c'.instructions ∧ c.constants <+: c'.constants ∧
    (c' = c ∨ ∃ e', c'.last_instruction = some e' ∧
      c.instructions.length ≤ e'.position ∧
      e'.position + instrSize e'.opcode = c'.instructions.length ∧
      (e'.opcode = .OpPop → ∃ p, c'.previous_instruction = some p ∧
        c.instructions.length ≤ p.position))

/-- The compiler state reached by compiling the one-statement program
`1;` from a fresh compiler: a push-constant followed by a discard, with
the discard as the recorded last instruction.  Used as the concrete
input of the retraction witnesses. -/
def popState : Compiler :=
  { instructions := [0, 0, 0, 1], constants := [.Integer 1]
    last_instruction := some ⟨.OpPop, 3⟩
    previous_instruction := some ⟨.OpConst, 0⟩ }

/-! ### Unsupported constructs (claim C4) -/

mutual

/-- Formalisation of the spec's §4.4 list of unsupported constructs,
used to state claim C4: identifier, call, index, string, array, float
and function-literal expressions, unknown prefix or infix operators —
anywhere inside the expression. -/
def exprUnsupported : Expression → Bool
  | .Identifier _ => true
  | .Literal (.Integer _) => false
  | .Literal (.Boolean _) => false
  | .Literal .Float => true
  | .Literal (.String _) => true
  | .Literal (.Array _) => true
  | .Infix l op r =>
    exprUnsupported l || exprUnsupported r ||
      !(op = "+" || op = "-" || op = "*" || op = "/" || op = ">" ||
        op = "<" || op = "==" || op = "!=")
  | .Prefix op r => exprUnsupported r || !(op = "!" || op = "-")
  | .If cond cons none => exprUnsupported cond || stmtsUnsupported cons
  | .If cond cons (some a) =>
    exprUnsupported cond || stmtsUnsupported cons || stmtsUnsupported a
  | .Function _ _ => true
  | .Call _ _ => true
  | .Index _ _ => true

/-- Statements the compiler does not lower: assignment, and any
statement containing an unsupported expression. -/
def stmtUnsupported : Statement → Bool
  | .Assign _ _ => true
  | .Expr e => exprUnsupported e
  | .Return r => exprUnsupported r

def stmtsUnsupported : List Statement → Bool
  | [] => false
  | s :: rest => stmtUnsupported s || stmtsUnsupported rest

end

def nodeUnsupported : Node → Bool
  | .Expression e => exprUnsupported e
  | .Program p => stmtsUnsupported p.statements
  | .Statement s => stmtUnsupported s

/-! ### The disassembly rendering (claim C9) -/

/-- Modelled from the spec: the `Display` rendering of an opcode — its
"human-readable mnemonic" (§6) — used by `format!("{:04} {}\n", i, op)`
in the `Debug` impl of `Bytecode`; the `opcode` crate holding the
`Display` instance is not among the provided sources, so the mnemonic
strings mirror the variant names. -/
def opcodeMnemonic : Opcode → Str
  | .OpConst => "OpConst"
  | .OpPop => "OpPop"
  | .OpAdd => "OpAdd"
  | .OpSub => "OpSub"
  | .OpMul => "OpMul"
  | .OpDiv => "OpDiv"
  | .OpGreaterThan => "OpGreaterThan"
  | .OpEqual => "OpEqual"
  | .OpNotEqual => "OpNotEqual"
  | .OpTrue => "OpTrue"
  | .OpFalse => "OpFalse"
  | .OpBang => "OpBang"
  | .OpMinus => "OpMinus"
  | .OpJump => "OpJump"
  | .OpJumpNotTruthy => "OpJumpNotTruthy"

/-- The decimal digit characters. -/
def digitOf : Nat → Char
  | 0 => '0'
  | 1 => '1'
  | 2 => '2'
  | 3 => '3'
  | 4 => '4'
  | 5 => '5'
  | 6 => '6'
  | 7 => '7'
  | 8 => '8'
  | _ => '9'

/-- Decimal rendering of a natural number, least-significant digit
computed first and consed onto the accumulator (the fuel argument is
always sufficient: a number's decimal length never exceeds the number
itself plus one). -/
def decDigitsCore : Nat → Nat → List Char → List Char
  | 0, _, ds => ds
  | fuel + 1, n, ds =>
    let d := digitOf (n % 10)
    if n / 10 = 0 then d :: ds else decDigitsCore fuel (n / 10) (d :: ds)

def natDecimal (n : Nat) : Str :=
  (decDigitsCore (n + 1) n []).asString

/-- Rust's `format!("{:04}", i)`: the decimal rendering of `i`,
left-padded with zeros to at least four characters. -/
def pad4 (n : Nat) : Str :=
  String.mk (List.replicate (4 - (natDecimal n).length) '0') ++ natDecimal n

/-- The `Debug` impl of `Bytecode` (`src/compiler/src/lib.rs` lines
13-25): one `format!("{:04} {}\n", i, op)` fragment is appended **per
byte** of the instruction stream, where `op = Opcode::from(byte)`. -/
def bytecodeDebug (bc : Bytecode) : Str :=
  String.join ((bc.instructions.enum).map fun p =>
    pad4 p.1 ++ " " ++ opcodeMnemonic (byteToOpcode p.2) ++ "\n")

/-- Number of rendered lines: every line the `Debug` impl appends is
`"\n"`-terminated, so lines are counted by newline characters. -/
def newlineCount (s : Str) : Nat :=
  s.data.count '\n'

/-! ### Basic facts about the instruction encoding -/

theorem byteToOpcode_opByte (op : Opcode) : byteToOpcode (opByte op) = op := by
  cases op <;> rfl

theorem instrSize_pos (op : Opcode) : 1 ≤ instrSize op :=
  Nat.le_add_right 1 _

theorem instrSize_le_three (op : Opcode) : instrSize op ≤ 3 := by
  cases op <;> decide

theorem beBytes_length (w v : Nat) : (beBytes w v).length = w := by
  induction w generalizing v with
  | zero => rfl
  | succ w ih => simp [beBytes, ih]

theorem make_nil_length (op : Opcode) (h : operandWidths op = []) :
    (make op []).length = instrSize op := by
  simp [make, encodeOperands, instrSize, h]

theorem make_one_length (op : Opcode) (x : Nat) (h : operandWidths op = [2]) :
    (make op [x]).length = instrSize op := by
  simp [make, encodeOperands, instrSize, h, beBytes]

theorem make_head (op : Opcode) (operands : List Nat) :
    (make op operands)[0]? = some (opByte op) := by
  simp [make]

/-! ### Unfolding lemmas for the small `Compiler` methods -/

theorem Compiler.emit_eq (c : Compiler) (op : Opcode) (operands : List Nat) :
    c.emit op operands =
      ({ instructions := c.instructions ++ make op operands
         constants := c.constants
         last_instruction :=
           some { opcode := op, position := c.instructions.length }
         previous_instruction := c.last_instruction },
        c.instructions.length) := rfl

theorem Compiler.add_constant_eq (c : Compiler) (obj : Object) :
    c.add_constant obj =
      ({ c with constants := c.constants ++ [obj] }, c.constants.length) := by
  simp [Compiler.add_constant]

/-! ### `writeBytes` -/

theorem writeBytes_length (bs : List Nat) (l : List Nat) (p : Nat) :
    (writeBytes l p bs).length = l.length := by
  induction bs generalizing l p with
  | nil => rfl
  | cons b bs ih => simp [writeBytes, ih]

theorem writeBytes_getElem?_lt (bs : List Nat) (l : List Nat) (p i : Nat)
    (h : i < p) : (writeBytes l p bs)[i]? = l[i]? := by
  induction bs generalizing l p with
  | nil => rfl
  | cons b bs ih =>
    rw [writeBytes, ih _ _ (Nat.lt_succ_of_lt h),
      List.getElem?_set_ne (by omega)]

theorem writeBytes_getElem?_ge (bs : List Nat) (l : List Nat) (p i : Nat)
    (h : p + bs.length ≤ i) : (writeBytes l p bs)[i]? = l[i]? := by
  induction bs generalizing l p with
  | nil => rfl
  | cons b bs ih =>
    rw [writeBytes, ih _ _ (by simp at h; omega),
      List.getElem?_set_ne (by simp at h; omega)]

theorem writeBytes_getElem?_at (bs : List Nat) (l : List Nat) (p k : Nat)
    (hin : p + bs.length ≤ l.length) (hk : k < bs.length) :
    (writeBytes l p bs)[p + k]? = bs[k]? := by
  induction bs generalizing l p k with
  | nil => simp at hk
  | cons b bs ih =>
    rw [writeBytes]
    match k with
    | 0 =>
      rw [writeBytes_getElem?_lt _ _ _ _ (by omega)]
      simp only [Nat.add_zero, List.getElem?_cons_zero]
      exact List.getElem?_set_eq_of_lt _ (by simp at hin; omega)
    | k + 1 =>
      have := ih (l.set p b) (p + 1) k (by simp at hin ⊢; omega)
        (by simp at hk; omega)
      rw [show p + (k + 1) = p + 1 + k by omega, this, List.getElem?_cons_succ]

/-! ### Prefix and `dropLast` helpers -/

theorem prefix_getElem?_eq {l₁ l₂ : List Nat} (h : l₁ <+: l₂) (i : Nat)
    (hi : i < l₁.length) : l₂[i]? = l₁[i]? := by
  obtain ⟨t, rfl⟩ := h
  exact List.getElem?_append_left hi

theorem prefix_of_getElem? {l₁ l₂ : List Nat} (hlen : l₁.length ≤ l₂.length)
    (h : ∀ i, i < l₁.length → l₂[i]? = l₁[i]?) : l₁ <+: l₂ := by
  rw [List.prefix_iff_eq_take]
  apply List.ext_getElem?
  intro i
  by_cases hi : i < l₁.length
  · rw [List.getElem?_take_of_lt hi, h i hi]
  · rw [List.getElem?_eq_none (l := l₁) (by omega),
      List.getElem?_eq_none (by simp; omega)]

theorem getElem?_dropLast (l : List Nat) (i : Nat) (h : i + 1 < l.length) :
    l.dropLast[i]? = l[i]? := by
  rw [List.dropLast_eq_take, List.getElem?_take_of_lt (by omega)]

theorem prefix_dropLast {l₁ l₂ : List Nat} (h : l₁ <+: l₂)
    (hlen : l₁.length < l₂.length) : l₁ <+: l₂.dropLast := by
  apply prefix_of_getElem? (by simp; omega)
  intro i hi
  rw [getElem?_dropLast _ _ (by omega)]
  exact prefix_getElem?_eq h i hi



theorem Inv_new : Inv Compiler.new := by
  constructor
  · intro e he
    simp [Compiler.new] at he
  · intro e he
    simp [Compiler.new] at he


/-! ### Invariant lemmas for the primitive compiler operations -/

theorem Inv_emit (c : Compiler) (op : Opcode) (operands : List Nat)
    (hInv : Inv c) (hlen : (make op operands).length = instrSize op)
    (hpop : op = .OpPop →
      ∃ e, c.last_instruction = some e ∧ e.opcode ≠ .OpPop) :
    Inv (c.emit op operands).1 := by
  obtain ⟨hfit, _⟩ := hInv
  rw [Compiler.emit_eq]
  constructor
  · intro e he
    simp only [Option.some.injEq] at he
    subst he
    refine ⟨by simp [hlen], ?_⟩
    rw [List.getElem?_append_right (Nat.le_refl _), Nat.sub_self, make_head]
  · intro e he hepop
    simp only [Option.some.injEq] at he
    subst he
    simp only at hepop
    obtain ⟨e₀, he₀, he₀pop⟩ := hpop hepop
    obtain ⟨hfit₀, hbyte₀⟩ := hfit e₀ he₀
    have hlt : e₀.position < c.instructions.length := by
      have := instrSize_pos e₀.opcode
      omega
    exact ⟨e₀, he₀, he₀pop, hfit₀,
      by rw [List.getElem?_append_left hlt]; exact hbyte₀⟩

theorem Inv_retract (c : Compiler) (hInv : Inv c) (e : EmittedInstruction)
    (hlast : c.last_instruction = some e) (hpop : e.opcode = .OpPop) :
    Inv c.remove_last_pop ∧
      (c.remove_last_pop).instructions = c.instructions.dropLast ∧
      e.position + 1 = c.instructions.length ∧
      (c.remove_last_pop).instructions.length = e.position ∧
      (c.remove_last_pop).constants = c.constants ∧
      ∃ p, (c.remove_last_pop).last_instruction = some p ∧
        p.opcode ≠ .OpPop ∧ p.position + instrSize p.opcode = e.position := by
  obtain ⟨hfit, hprev⟩ := hInv
  obtain ⟨hfit₁, _⟩ := hfit e hlast
  have hsize : instrSize e.opcode = 1 := by rw [hpop]; rfl
  have hlen : e.position + 1 = c.instructions.length := by omega
  obtain ⟨p, hp, hpnot, hpfit, hpbyte⟩ := hprev e hlast hpop
  have hplt : p.position + 1 < c.instructions.length := by
    have := instrSize_pos p.opcode
    omega
  refine ⟨⟨?_, ?_⟩, rfl, hlen, by simp [Compiler.remove_last_pop]; omega,
    rfl, p, hp, hpnot, hpfit⟩
  · intro q hq
    simp only [Compiler.remove_last_pop] at hq
    rw [hp] at hq
    simp only [Option.some.injEq] at hq
    subst hq
    constructor
    · simp only [Compiler.remove_last_pop, List.length_dropLast]
      omega
    · simp only [Compiler.remove_last_pop]
      rw [getElem?_dropLast _ _ (by omega)]
      exact hpbyte
  · intro q hq hqpop
    simp only [Compiler.remove_last_pop] at hq
    rw [hp] at hq
    simp only [Option.some.injEq] at hq
    subst hq
    exact absurd hqpop hpnot

theorem make_one_length3 (op : Opcode) (x : Nat)
    (h : operandWidths op = [2]) : (make op [x]).length = 3 := by
  simp [make, encodeOperands, h, beBytes]

/-- Effect of `Compiler::change_operand` when the opcode byte found at
`position` belongs to a two-byte-operand instruction lying wholly inside
the stream: the three bytes of that instruction are re-encoded in place
and every other byte, the stream length, the constants, and both
emitted-instruction records are untouched. -/
theorem change_operand_spec (c : Compiler) (position operand : Nat)
    (op : Opcode) (hb : c.instructions[position]? = some (opByte op))
    (hw : operandWidths op = [2])
    (hle : position + 3 ≤ c.instructions.length) :
    (c.change_operand position operand).instructions.length
        = c.instructions.length ∧
      (c.change_operand position operand).constants = c.constants ∧
      (c.change_operand position operand).last_instruction
        = c.last_instruction ∧
      (c.change_operand position operand).previous_instruction
        = c.previous_instruction ∧
      (∀ i, i < position →
        (c.change_operand position operand).instructions[i]?
          = c.instructions[i]?) ∧
      (∀ i, position + 3 ≤ i →
        (c.change_operand position operand).instructions[i]?
          = c.instructions[i]?) ∧
      (∀ k, k < 3 →
        (c.change_operand position operand).instructions[position + k]?
          = (make op [operand])[k]?) := by
  have hop : byteToOpcode (c.instructions.getD position 0) = op := by
    rw [List.getD_eq_getElem?_getD, hb]
    exact byteToOpcode_opByte op
  have hmk : (make op [operand]).length = 3 := make_one_length3 op operand hw
  simp only [Compiler.change_operand, Compiler.replace_instruction, hop]
  refine ⟨by rw [writeBytes_length], by trivial, by trivial, by trivial, ?_, ?_, ?_⟩
  · intro i hi
    exact writeBytes_getElem?_lt _ _ _ _ hi
  · intro i hi
    exact writeBytes_getElem?_ge _ _ _ _ (by omega)
  · intro k hk
    exact writeBytes_getElem?_at _ _ _ _ (by omega) (by omega)

/-- A consecutive window of a byte list, read off pointwise. -/
theorem window_eq (l : List Nat) (p : Nat) (ws : List Nat) (n : Nat)
    (hn : ws.length = n) (hlen : p + n ≤ l.length)
    (h : ∀ k, k < n → l[p + k]? = ws[k]?) :
    (l.drop p).take n = ws := by
  apply List.ext_getElem?
  intro i
  by_cases hi : i < n
  · rw [List.getElem?_take_of_lt hi, List.getElem?_drop, h i hi]
  · rw [List.getElem?_eq_none (l := ws) (by omega),
      List.getElem?_eq_none (by simp; omega)]

/-! ### Projection lemmas and small helpers -/

theorem emit_instructions (c : Compiler) (op : Opcode) (ops : List Nat) :
    (c.emit op ops).1.instructions = c.instructions ++ make op ops := rfl

theorem emit_constants (c : Compiler) (op : Opcode) (ops : List Nat) :
    (c.emit op ops).1.constants = c.constants := rfl

theorem emit_last (c : Compiler) (op : Opcode) (ops : List Nat) :
    (c.emit op ops).1.last_instruction
      = some { opcode := op, position := c.instructions.length } := rfl

theorem emit_prev (c : Compiler) (op : Opcode) (ops : List Nat) :
    (c.emit op ops).1.previous_instruction = c.last_instruction := rfl

theorem emit_pos (c : Compiler) (op : Opcode) (ops : List Nat) :
    (c.emit op ops).2 = c.instructions.length := rfl

theorem append_make_head (l : List Nat) (op : Opcode) (ops : List Nat) :
    (l ++ make op ops)[l.length]? = some (opByte op) := by
  rw [List.getElem?_append_right (Nat.le_refl _), Nat.sub_self, make_head]

theorem last_is_true_iff (c : Compiler) (op : Opcode) :
    c.last_instruction_is op = true ↔
      ∃ e, c.last_instruction = some e ∧ e.opcode = op := by
  unfold Compiler.last_instruction_is
  cases h : c.last_instruction with
  | none => simp
  | some e => simp [beq_iff_eq]

theorem last_is_false_ne (c : Compiler) (op : Opcode)
    (h : c.last_instruction_is op = false) (e : EmittedInstruction)
    (he : c.last_instruction = some e) : e.opcode ≠ op := by
  intro hop
  have : c.last_instruction_is op = true := (last_is_true_iff c op).mpr ⟨e, he, hop⟩
  rw [h] at this
  exact Bool.false_ne_true this

theorem ExprPost.trans {c d e : Compiler} (h₁ : ExprPost c d)
    (h₂ : ExprPost d e) : ExprPost c e := by
  obtain ⟨_, hp₁, hc₁, _⟩ := h₁
  obtain ⟨hI, hp₂, hc₂, e₂, he₂, hne, hpos, hfit⟩ := h₂
  exact ⟨hI, hp₁.trans hp₂, hc₁.trans hc₂, e₂, he₂, hne,
    Nat.le_trans (hp₁.length_le) hpos, hfit⟩

/-- Emitting a non-discard instruction from a state reached from `c`
yields an `ExprPost c`-state. -/
theorem ExprPost_emit (c d : Compiler) (op : Opcode) (operands : List Nat)
    (hInv : Inv d) (hpre : c.instructions <+: d.instructions)
    (hcon : c.constants <+: d.constants) (hop : op ≠ .OpPop)
    (hlen : (make op operands).length = instrSize op) :
    ExprPost c (d.emit op operands).1 := by
  refine ⟨Inv_emit d op operands hInv hlen (fun h => absurd h hop), ?_, ?_, ?_⟩
  · rw [emit_instructions]
    exact hpre.trans (List.prefix_append _ _)
  · rw [emit_constants]
    exact hcon
  · refine ⟨_, emit_last d op operands, hop, hpre.length_le, ?_⟩
    rw [emit_instructions]
    simp [hlen]

/-- Anatomy of the retraction step `retractIfPop` as it is used inside
the `If` arm: it is entered right after a block was compiled from a
state `c2` whose recorded last instruction `e2` is not a discard.
Whatever the block did, afterwards the bytes of `c2` are untouched, the
invariant holds, and the recorded last instruction is a non-discard
instruction ending exactly at the stream's end — either `e2` itself
(block compiled no code) or an instruction emitted inside the block. -/
theorem retract_step (c2 c3 : Compiler) (e2 : EmittedInstruction)
    (hP : ListPost c2 c3)
    (hlast2 : c2.last_instruction = some e2) (hne2 : e2.opcode ≠ .OpPop)
    (hfit2 : e2.position + instrSize e2.opcode = c2.instructions.length) :
    Inv c3.retractIfPop ∧
      c2.instructions <+: (c3.retractIfPop).instructions ∧
      c2.instructions.length ≤ (c3.retractIfPop).instructions.length ∧
      (c3.retractIfPop).constants = c3.constants ∧
      ∃ efin, (c3.retractIfPop).last_instruction = some efin ∧
        efin.opcode ≠ .OpPop ∧
        efin.position + instrSize efin.opcode
          = (c3.retractIfPop).instructions.length ∧
        (efin = e2 ∨ c2.instructions.length ≤ efin.position) := by
  obtain ⟨hInv3, hpre, hcon, hbr⟩ := hP
  rw [Compiler.retractIfPop]
  by_cases hgd : c3.last_instruction_is .OpPop = true
  · rw [if_pos hgd]
    obtain ⟨e3, hlast3, hpop3⟩ := (last_is_true_iff c3 .OpPop).mp hgd
    rcases hbr with hbr | ⟨e3', hlast3', hpos3, hfit3, hpcl⟩
    · rw [hbr] at hlast3
      rw [hlast2] at hlast3
      cases hlast3
      exact absurd hpop3 hne2
    · have heq : e3 = e3' := by
        rw [hlast3'] at hlast3
        exact Option.some.inj hlast3.symm
      subst heq
      obtain ⟨hInv4, hinstr4, hlen3, hlen4, hconst4, p, hp, hpne, hpfit⟩ :=
        Inv_retract c3 hInv3 e3 hlast3' hpop3
      obtain ⟨q, hq, hqpos⟩ := hpcl hpop3
      have hsz : instrSize e3.opcode = 1 := by rw [hpop3]; rfl
      refine ⟨hInv4, ?_, by omega, hconst4, p, hp, hpne, by omega, Or.inr ?_⟩
      · rw [hinstr4]
        exact prefix_dropLast hpre (by omega)
      · have hpq : c3.previous_instruction
            = c3.remove_last_pop.last_instruction := rfl
        rw [hpq, hp] at hq
        cases hq
        exact hqpos
  · rw [if_neg hgd]
    rw [Bool.not_eq_true] at hgd
    rcases hbr with hbr | ⟨e3', hlast3', hpos3, hfit3, _⟩
    · subst hbr
      exact ⟨hInv3, hpre, hpre.length_le, rfl, e2, hlast2, hne2, hfit2,
        Or.inl rfl⟩
    · exact ⟨hInv3, hpre, hpre.length_le, rfl, e3',
        hlast3', last_is_false_ne c3 .OpPop hgd e3' hlast3', hfit3,
        Or.inr hpos3⟩

/-- Anatomy of a successful `If`-compilation, given the post-conditions
of its three sub-compilations.  Writing `jnt` for the offset of the
jump-if-not-truthy instruction (the stream length after the condition),
`c4` for the state after the consequence and its retraction step, and
`j = c4.instructions.length` for the offset of the unconditional jump:
the final stream holds at `jnt` a jump-if-not-truthy with operand
`j + 3` (the offset just past the jump), at `j` a jump whose operand is
`j + 3` when there is no alternative (with nothing following it) and the
final stream length when there is one, and the whole call satisfies
`ExprPost`. -/
theorem if_compile_anatomy
    (c c1 c3 c' : Compiler) (cond : Expression) (cons : List Statement)
    (alternative : Option (List Statement))
    (hcond : compileExpression c cond = (c1, none))
    (hPc : ExprPost c c1)
    (hcons : compileStatements (c1.emit .OpJumpNotTruthy [9999]).1 cons
      = (c3, none))
    (hPcons : ListPost (c1.emit .OpJumpNotTruthy [9999]).1 c3)
    (hPalt : ∀ alt, alternative = some alt → ∀ d c7, Inv d →
      compileStatements d alt = (c7, none) → ListPost d c7)
    (h : compileExpression c (.If cond cons alternative) = (c', none)) :
    ExprPost c c' ∧
      ((c'.instructions.drop c1.instructions.length).take 3
        = make .OpJumpNotTruthy [c3.retractIfPop.instructions.length + 3]) ∧
      (alternative = none →
        ((c'.instructions.drop c3.retractIfPop.instructions.length).take 3
            = make .OpJump [c3.retractIfPop.instructions.length + 3]) ∧
          c'.instructions.length = c3.retractIfPop.instructions.length + 3) ∧
      (∀ alt, alternative = some alt →
        (c'.instructions.drop c3.retractIfPop.instructions.length).take 3
          = make .OpJump [c'.instructions.length]) := by
  obtain ⟨hInv1, hpreC, hconC, e1, he1, hne1, hpos1, hfit1⟩ := hPc
  -- facts about c2, the state holding the fresh jump-if-not-truthy
  have hInv2 : Inv (c1.emit .OpJumpNotTruthy [9999]).1 :=
    Inv_emit c1 _ _ hInv1 (make_one_length _ _ rfl) (fun hx => nomatch hx)
  have hc2len : (c1.emit .OpJumpNotTruthy [9999]).1.instructions.length
      = c1.instructions.length + 3 := by
    rw [emit_instructions]
    simp [make_one_length3 Opcode.OpJumpNotTruthy 9999 rfl]
  have hbjnt2 : (c1.emit .OpJumpNotTruthy [9999]).1.instructions[
      c1.instructions.length]? = some (opByte .OpJumpNotTruthy) := by
    rw [emit_instructions]
    exact append_make_head _ _ _
  -- the retraction step after the consequence
  obtain ⟨hInv4, hpre24, hlen24, hcon4, e4, he4, hne4, hfit4, hpos4⟩ :=
    retract_step (c1.emit .OpJumpNotTruthy [9999]).1 c3
      { opcode := .OpJumpNotTruthy, position := c1.instructions.length }
      hPcons (emit_last c1 _ _) (fun hx => nomatch hx)
      (by simp only []; rw [hc2len]; rfl)
  have hj3 : c1.instructions.length + 3 ≤ c3.retractIfPop.instructions.length := by
    omega
  have hbjnt4 : c3.retractIfPop.instructions[c1.instructions.length]?
      = some (opByte .OpJumpNotTruthy) := by
    rw [prefix_getElem?_eq hpre24 _ (by omega)]
    exact hbjnt2
  -- the unconditional jump
  have hInv5 : Inv (c3.retractIfPop.emit .OpJump [9999]).1 :=
    Inv_emit _ _ _ hInv4 (make_one_length _ _ rfl) (fun hx => nomatch hx)
  have hc5len : (c3.retractIfPop.emit .OpJump [9999]).1.instructions.length
      = c3.retractIfPop.instructions.length + 3 := by
    rw [emit_instructions]
    simp [make_one_length3 Opcode.OpJump 9999 rfl]
  have hbj5 : (c3.retractIfPop.emit .OpJump [9999]).1.instructions[
      c3.retractIfPop.instructions.length]? = some (opByte .OpJump) := by
    rw [emit_instructions]
    exact append_make_head _ _ _
  have hbjnt5 : (c3.retractIfPop.emit .OpJump [9999]).1.instructions[
      c1.instructions.length]? = some (opByte .OpJumpNotTruthy) := by
    rw [emit_instructions, List.getElem?_append_left (by omega)]
    exact hbjnt4
  -- the first back-patch of the jump-if-not-truthy operand
  obtain ⟨hlen6, hcon6, hlast6, hprev6, hlo6, hhi6, hwin6⟩ :=
    change_operand_spec (c3.retractIfPop.emit .OpJump [9999]).1
      (c1.instructions.length)
      ((c3.retractIfPop.emit .OpJump [9999]).1.instructions.length)
      .OpJumpNotTruthy hbjnt5 rfl (by omega)
  have hInv6 : Inv ((c3.retractIfPop.emit .OpJump [9999]).1.change_operand
      c1.instructions.length
      (c3.retractIfPop.emit .OpJump [9999]).1.instructions.length) := by
    constructor
    · intro e he
      rw [hlast6, emit_last] at he
      cases he
      dsimp only
      constructor
      · rw [hlen6, hc5len]
        rfl
      · rw [hhi6 _ (by omega)]
        exact hbj5
    · intro e he hp
      rw [hlast6, emit_last] at he
      cases he
      exact nomatch hp
  have hbj6 : ((c3.retractIfPop.emit .OpJump [9999]).1.change_operand
      c1.instructions.length
      (c3.retractIfPop.emit .OpJump [9999]).1.instructions.length).instructions[
        c3.retractIfPop.instructions.length]? = some (opByte .OpJump) := by
    rw [hhi6 _ (by omega)]
    exact hbj5
  have hwin6' : ∀ k, k < 3 →
      ((c3.retractIfPop.emit .OpJump [9999]).1.change_operand
        c1.instructions.length
        (c3.retractIfPop.emit .OpJump [9999]).1.instructions.length).instructions[
          c1.instructions.length + k]?
        = (make .OpJumpNotTruthy
            [c3.retractIfPop.instructions.length + 3])[k]? := by
    intro k hk
    rw [hwin6 k hk, hc5len]
  have hpreC2 : c.instructions
      <+: (c1.emit .OpJumpNotTruthy [9999]).1.instructions := by
    rw [emit_instructions]
    exact hpreC.trans (List.prefix_append _ _)
  have hpre45 : c3.retractIfPop.instructions
      <+: (c3.retractIfPop.emit .OpJump [9999]).1.instructions := by
    rw [emit_instructions]
    exact List.prefix_append _ _
  have hpreC5 : c.instructions
      <+: (c3.retractIfPop.emit .OpJump [9999]).1.instructions :=
    (hpreC2.trans hpre24).trans hpre45
  have hclen1 : c.instructions.length ≤ c1.instructions.length :=
    hpreC.length_le
  have hpreC6 : c.instructions
      <+: ((c3.retractIfPop.emit .OpJump [9999]).1.change_operand
        c1.instructions.length
        (c3.retractIfPop.emit .OpJump [9999]).1.instructions.length).instructions := by
    apply prefix_of_getElem? (by rw [hlen6]; exact hpreC5.length_le)
    intro i hi
    rw [hlo6 i (by omega)]
    exact prefix_getElem?_eq hpreC5 i hi
  have hconC4 : c.constants <+: c3.retractIfPop.constants := by
    rw [hcon4]
    have h21 : (c1.emit .OpJumpNotTruthy [9999]).1.constants = c1.constants :=
      emit_constants _ _ _
    exact hconC.trans (h21 ▸ hPcons.2.2.1)
  have hconC6 : c.constants
      <+: ((c3.retractIfPop.emit .OpJump [9999]).1.change_operand
        c1.instructions.length
        (c3.retractIfPop.emit .OpJump [9999]).1.instructions.length).constants := by
    rw [hcon6, emit_constants]
    exact hconC4
  cases alternative with
  | none =>
    simp only [compileExpression, hcond, seqComp, hcons, emit_pos] at h
    rw [Prod.mk.injEq] at h
    obtain ⟨hX, -⟩ := h
    subst hX
    -- the second (identical) back-patch of the jump-if-not-truthy operand
    have hbjnt6 : ((c3.retractIfPop.emit .OpJump [9999]).1.change_operand
        c1.instructions.length
        (c3.retractIfPop.emit .OpJump [9999]).1.instructions.length).instructions[
          c1.instructions.length]? = some (opByte .OpJumpNotTruthy) := by
      have h0 := hwin6' 0 (by omega)
      rw [Nat.add_zero] at h0
      rw [h0, make_head]
    obtain ⟨hlen7, hcon7, hlast7, hprev7, hlo7, hhi7, hwin7⟩ :=
      change_operand_spec _ (c1.instructions.length) _ .OpJumpNotTruthy
        hbjnt6 rfl (by omega)
    have hbj7 : (((c3.retractIfPop.emit .OpJump [9999]).1.change_operand
        c1.instructions.length
        (c3.retractIfPop.emit .OpJump [9999]).1.instructions.length).change_operand
          c1.instructions.length
          ((c3.retractIfPop.emit .OpJump [9999]).1.change_operand
            c1.instructions.length
            (c3.retractIfPop.emit .OpJump [9999]).1.instructions.length).instructions.length).instructions[
              c3.retractIfPop.instructions.length]? = some (opByte .OpJump) := by
      rw [hhi7 _ (by omega)]
      exact hbj6
    obtain ⟨hlen8, hcon8, hlast8, hprev8, hlo8, hhi8, hwin8⟩ :=
      change_operand_spec _ (c3.retractIfPop.instructions.length) _ .OpJump
        hbj7 rfl (by omega)
    refine ⟨?_, ?_, ?_, ?_⟩
    · -- ExprPost
      refine ⟨⟨?_, ?_⟩, ?_, ?_,
        ⟨.OpJump, c3.retractIfPop.instructions.length⟩, ?_, ?_, ?_, ?_⟩
      · intro e he
        rw [hlast8, hlast7, hlast6, emit_last] at he
        cases he
        dsimp only
        constructor
        · rw [hlen8, hlen7, hlen6, hc5len]
          rfl
        · have h0 := hwin8 0 (by omega)
          rw [Nat.add_zero] at h0
          rw [h0, make_head]
      · intro e he hp
        rw [hlast8, hlast7, hlast6, emit_last] at he
        cases he
        exact nomatch hp
      · apply prefix_of_getElem?
          (by rw [hlen8, hlen7, hlen6]; exact hpreC5.length_le)
        intro i hi
        rw [hlo8 i (by omega), hlo7 i (by omega)]
        exact prefix_getElem?_eq hpreC6 i hi
      · rw [hcon8, hcon7]
        exact hconC6
      · rw [hlast8, hlast7, hlast6, emit_last]
      · exact fun hx => nomatch hx
      · show c.instructions.length ≤ c3.retractIfPop.instructions.length
        omega
      · show c3.retractIfPop.instructions.length + instrSize .OpJump = _
        rw [hlen8, hlen7, hlen6, hc5len]
        rfl
    · -- the jump-if-not-truthy window
      apply window_eq _ _ _ 3 (make_one_length3 .OpJumpNotTruthy _ rfl)
        (by rw [hlen8, hlen7, hlen6, hc5len]; omega)
      intro k hk
      rw [hlo8 _ (by omega), hwin7 k hk, hlen6, hc5len]
    · -- no alternative: the no-op jump and the final length
      intro _
      constructor
      · apply window_eq _ _ _ 3 (make_one_length3 .OpJump _ rfl)
          (by rw [hlen8, hlen7, hlen6, hc5len]; try omega)
        intro k hk
        rw [hwin8 k hk, hlen7, hlen6, hc5len]
      · rw [hlen8, hlen7, hlen6, hc5len]
    · intro alt halt
      exact nomatch halt
  | some alt =>
    simp only [compileExpression, hcond, seqComp, hcons, emit_pos] at h
    rcases halts : compileStatements
      ((c3.retractIfPop.emit .OpJump [9999]).1.change_operand
        c1.instructions.length
        (c3.retractIfPop.emit .OpJump [9999]).1.instructions.length) alt
      with ⟨c7, err7⟩
    rw [halts] at h
    cases err7 with
    | some err => simp [seqComp] at h
    | none =>
      have hPa := hPalt alt rfl _ c7 hInv6 halts
      obtain ⟨hInv8, hpre68, hlen68, hcon8, efin, hefin, hnefin, hfitfin,
        hposfin⟩ :=
        retract_step _ c7
          { opcode := .OpJump, position := c3.retractIfPop.instructions.length }
          hPa (by rw [hlast6]; exact emit_last _ _ _) (fun hx => nomatch hx)
          (by simp only []; rw [hlen6, hc5len]; rfl)
      simp only [seqComp] at h
      rw [Prod.mk.injEq] at h
      obtain ⟨hX, -⟩ := h
      subst hX
      have hbj8 : c7.retractIfPop.instructions[
          c3.retractIfPop.instructions.length]? = some (opByte .OpJump) := by
        rw [prefix_getElem?_eq hpre68 _ (by rw [hlen6, hc5len]; omega)]
        exact hbj6
      obtain ⟨hlen9, hcon9, hlast9, hprev9, hlo9, hhi9, hwin9⟩ :=
        change_operand_spec c7.retractIfPop
          (c3.retractIfPop.instructions.length)
          (c7.retractIfPop.instructions.length) .OpJump hbj8 rfl
          (by rw [hlen6, hc5len] at hlen68; omega)
      have hlen68' : c3.retractIfPop.instructions.length + 3
          ≤ c7.retractIfPop.instructions.length := by
        rw [hlen6, hc5len] at hlen68
        omega
      refine ⟨?_, ?_, ?_, ?_⟩
      · -- ExprPost
        refine ⟨⟨?_, ?_⟩, ?_, ?_, efin, ?_, hnefin, ?_, ?_⟩
        · intro e he
          rw [hlast9, hefin] at he
          cases he
          constructor
          · rw [hlen9]
            exact hfitfin
          · rcases hposfin with heq | hge
            · subst heq
              have h0 := hwin9 0 (by omega)
              rw [Nat.add_zero] at h0
              rw [h0, make_head]
            · rw [hlen6, hc5len] at hge
              rw [hhi9 _ (by omega)]
              exact (hInv8.1 efin hefin).2
        · intro e he hp
          rw [hlast9, hefin] at he
          cases he
          exact absurd hp hnefin
        · apply prefix_of_getElem? (by rw [hlen9]; omega)
          intro i hi
          rw [hlo9 i (by omega)]
          rw [prefix_getElem?_eq hpre68 i (by rw [hlen6, hc5len]; omega)]
          exact prefix_getElem?_eq hpreC6 i hi
        · rw [hcon9, hcon8]
          exact hconC6.trans hPa.2.2.1
        · rw [hlast9]
          exact hefin
        · rcases hposfin with heq | hge
          · subst heq
            show c.instructions.length ≤ c3.retractIfPop.instructions.length
            omega
          · rw [hlen6, hc5len] at hge
            omega
        · rw [hlen9]
          exact hfitfin
      · -- the jump-if-not-truthy window
        apply window_eq _ _ _ 3 (make_one_length3 .OpJumpNotTruthy _ rfl)
          (by rw [hlen9]; omega)
        intro k hk
        rw [hlo9 _ (by omega)]
        rw [prefix_getElem?_eq hpre68 _ (by rw [hlen6, hc5len]; omega)]
        exact hwin6' k hk
      · intro habs
        exact nomatch habs
      · intro alt' halt'
        apply window_eq _ _ _ 3 (make_one_length3 .OpJump _ rfl)
          (by rw [hlen9]; omega)
        intro k hk
        rw [hwin9 k hk, hlen9]

theorem Inv_add_constant (c : Compiler) (obj : Object) (hInv : Inv c) :
    Inv (c.add_constant obj).1 := hInv

mutual

/-- A successful `compile_expression` call from an invariant state ends
in an invariant state, only appends to the old bytes and the old
constants, and leaves a truthful non-discard last-instruction record
ending at the stream's end. -/
theorem compileExpression_post (e : Expression) (c : Compiler)
    (hInv : Inv c) (c' : Compiler)
    (h : compileExpression c e = (c', none)) : ExprPost c c' := by
  cases e with
  | Identifier v =>
    simp [compileExpression] at h
  | Function p b =>
    simp [compileExpression] at h
  | Call f a =>
    simp [compileExpression] at h
  | Index l i =>
    simp [compileExpression] at h
  | Literal lit =>
    cases lit with
    | Integer v =>
      simp only [compileExpression] at h
      rw [Prod.mk.injEq] at h
      obtain ⟨hX, -⟩ := h
      subst hX
      exact ExprPost_emit c _ .OpConst _
        (Inv_add_constant c _ hInv) (List.prefix_refl _)
        (List.prefix_append _ _) (by decide) (make_one_length _ _ rfl)
    | Float =>
      simp [compileExpression] at h
    | String v =>
      simp [compileExpression] at h
    | Array els =>
      simp [compileExpression] at h
    | Boolean b =>
      cases b with
      | true =>
        simp only [compileExpression] at h
        rw [Prod.mk.injEq] at h
        obtain ⟨hX, -⟩ := h
        subst hX
        exact ExprPost_emit c c .OpTrue [] hInv (List.prefix_refl _)
          (List.prefix_refl _) (by decide) (make_nil_length _ rfl)
      | false =>
        simp only [compileExpression] at h
        rw [Prod.mk.injEq] at h
        obtain ⟨hX, -⟩ := h
        subst hX
        exact ExprPost_emit c c .OpFalse [] hInv (List.prefix_refl _)
          (List.prefix_refl _) (by decide) (make_nil_length _ rfl)
  | Prefix operator right =>
    simp only [compileExpression] at h
    rcases hr : compileExpression c right with ⟨c1, err1⟩
    rw [hr] at h
    cases err1 with
    | some err => simp [seqComp] at h
    | none =>
      simp only [seqComp] at h
      have hP1 : ExprPost c c1 := compileExpression_post right c hInv c1 hr
      split at h
      · rw [Prod.mk.injEq] at h
        obtain ⟨hX, -⟩ := h
        subst hX
        exact ExprPost_emit c c1 _ [] hP1.1 hP1.2.1 hP1.2.2.1 (by decide)
          (make_nil_length _ rfl)
      · split at h
        · rw [Prod.mk.injEq] at h
          obtain ⟨hX, -⟩ := h
          subst hX
          exact ExprPost_emit c c1 _ [] hP1.1 hP1.2.1 hP1.2.2.1 (by decide)
            (make_nil_length _ rfl)
        · simp at h
  | Infix left operator right =>
    simp only [compileExpression] at h
    by_cases hop : operator = "<"
    · rw [if_pos hop] at h
      rcases hr : compileExpression c right with ⟨cr, errr⟩
      rw [hr] at h
      cases errr with
      | some err => simp [seqComp] at h
      | none =>
        simp only [seqComp] at h
        rcases hl : compileExpression cr left with ⟨c1, errl⟩
        rw [hl] at h
        cases errl with
        | some err => simp [seqComp] at h
        | none =>
          simp only [seqComp] at h
          have hP1 : ExprPost c c1 :=
            (compileExpression_post right c hInv cr hr).trans
              (compileExpression_post left cr
                (compileExpression_post right c hInv cr hr).1 c1 hl)
          rw [hop] at h
          simp only [reduceIte] at h
          rw [Prod.mk.injEq] at h
          obtain ⟨hX, -⟩ := h
          subst hX
          exact ExprPost_emit c c1 _ [] hP1.1 hP1.2.1 hP1.2.2.1 (by decide)
            (make_nil_length _ rfl)
    · rw [if_neg hop] at h
      rcases hl : compileExpression c left with ⟨cl, errl⟩
      rw [hl] at h
      cases errl with
      | some err => simp [seqComp] at h
      | none =>
        simp only [seqComp] at h
        rcases hr : compileExpression cl right with ⟨c1, errr⟩
        rw [hr] at h
        cases errr with
        | some err => simp [seqComp] at h
        | none =>
          simp only [seqComp] at h
          have hP1 : ExprPost c c1 :=
            (compileExpression_post left c hInv cl hl).trans
              (compileExpression_post right cl
                (compileExpression_post left c hInv cl hl).1 c1 hr)
          split at h
          · rw [Prod.mk.injEq] at h
            obtain ⟨hX, -⟩ := h
            subst hX
            exact ExprPost_emit c c1 _ [] hP1.1 hP1.2.1 hP1.2.2.1
              (by decide) (make_nil_length _ rfl)
          · split at h
            · rw [Prod.mk.injEq] at h
              obtain ⟨hX, -⟩ := h
              subst hX
              exact ExprPost_emit c c1 _ [] hP1.1 hP1.2.1 hP1.2.2.1
                (by decide) (make_nil_length _ rfl)
            · split at h
              · rw [Prod.mk.injEq] at h
                obtain ⟨hX, -⟩ := h
                subst hX
                exact ExprPost_emit c c1 _ [] hP1.1 hP1.2.1 hP1.2.2.1
                  (by decide) (make_nil_length _ rfl)
              · split at h
                · rw [Prod.mk.injEq] at h
                  obtain ⟨hX, -⟩ := h
                  subst hX
                  exact ExprPost_emit c c1 _ [] hP1.1 hP1.2.1 hP1.2.2.1
                    (by decide) (make_nil_length _ rfl)
                · split at h
                  · rw [Prod.mk.injEq] at h
                    obtain ⟨hX, -⟩ := h
                    subst hX
                    exact ExprPost_emit c c1 _ [] hP1.1 hP1.2.1 hP1.2.2.1
                      (by decide) (make_nil_length _ rfl)
                  · split at h
                    · rw [Prod.mk.injEq] at h
                      obtain ⟨hX, -⟩ := h
                      subst hX
                      exact ExprPost_emit c c1 _ [] hP1.1 hP1.2.1 hP1.2.2.1
                        (by decide) (make_nil_length _ rfl)
                    · split at h
                      · rw [Prod.mk.injEq] at h
                        obtain ⟨hX, -⟩ := h
                        subst hX
                        exact ExprPost_emit c c1 _ [] hP1.1 hP1.2.1
                          hP1.2.2.1 (by decide) (make_nil_length _ rfl)
                      · simp at h
  | If cond cons alt =>
    have h0 := h
    cases alt with
    | none =>
      simp only [compileExpression] at h
      rcases hcond : compileExpression c cond with ⟨c1, err1⟩
      rw [hcond] at h
      cases err1 with
      | some err => simp [seqComp] at h
      | none =>
        simp only [seqComp, emit_pos] at h
        rcases hcons : compileStatements
            (c1.emit .OpJumpNotTruthy [9999]).1 cons with ⟨c3, err3⟩
        rw [hcons] at h
        cases err3 with
        | some err => simp [seqComp] at h
        | none =>
          have hPc : ExprPost c c1 :=
            compileExpression_post cond c hInv c1 hcond
          have hPcons : ListPost (c1.emit .OpJumpNotTruthy [9999]).1 c3 :=
            compileStatements_post cons (c1.emit .OpJumpNotTruthy [9999]).1
              (Inv_emit c1 _ _ hPc.1 (make_one_length _ _ rfl)
                (fun hx => nomatch hx)) c3 hcons
          exact (if_compile_anatomy c c1 c3 c' cond cons none hcond hPc
            hcons hPcons (fun a ha => nomatch ha) h0).1
    | some alt =>
      simp only [compileExpression] at h
      rcases hcond : compileExpression c cond with ⟨c1, err1⟩
      rw [hcond] at h
      cases err1 with
      | some err => simp [seqComp] at h
      | none =>
        simp only [seqComp, emit_pos] at h
        rcases hcons : compileStatements
            (c1.emit .OpJumpNotTruthy [9999]).1 cons with ⟨c3, err3⟩
        rw [hcons] at h
        cases err3 with
        | some err => simp [seqComp] at h
        | none =>
          have hPc : ExprPost c c1 :=
            compileExpression_post cond c hInv c1 hcond
          have hPcons : ListPost (c1.emit .OpJumpNotTruthy [9999]).1 c3 :=
            compileStatements_post cons (c1.emit .OpJumpNotTruthy [9999]).1
              (Inv_emit c1 _ _ hPc.1 (make_one_length _ _ rfl)
                (fun hx => nomatch hx)) c3 hcons
          refine (if_compile_anatomy c c1 c3 c' cond cons (some alt) hcond
            hPc hcons hPcons ?_ h0).1
          intro a ha d c7 hd hcomp
          cases ha
          first
          | exact compileStatements_post alt d hd c7 hcomp
          | exact compileStatements_post a d hd c7 hcomp

/-- A successful `compile_statement` call from an invariant state. -/
theorem compileStatement_post (s : Statement) (c : Compiler)
    (hInv : Inv c) (c' : Compiler)
    (h : compileStatement c s = (c', none)) : StmtPost c c' := by
  cases s with
  | Assign n v =>
    simp [compileStatement] at h
  | Return r =>
    simp only [compileStatement] at h
    obtain ⟨hI, hpre, hcon, e', he', hne', hpos', hfit'⟩ :=
      compileExpression_post r c hInv c' h
    exact ⟨hI, hpre, hcon, e', he', hpos', hfit', fun hp => absurd hp hne'⟩
  | Expr e =>
    simp only [compileStatement] at h
    rcases he : compileExpression c e with ⟨c1, err1⟩
    rw [he] at h
    cases err1 with
    | some err => simp [seqComp] at h
    | none =>
      simp only [seqComp] at h
      rw [Prod.mk.injEq] at h
      obtain ⟨hX, -⟩ := h
      subst hX
      obtain ⟨hI1, hpre1, hcon1, e', he', hne', hpos', hfit'⟩ :=
        compileExpression_post e c hInv c1 he
      refine ⟨Inv_emit c1 .OpPop [] hI1 (make_nil_length _ rfl)
        (fun _ => ⟨e', he', hne'⟩), ?_, ?_, ?_⟩
      · rw [emit_instructions]
        exact hpre1.trans (List.prefix_append _ _)
      · rw [emit_constants]
        exact hcon1
      · refine ⟨⟨.OpPop, c1.instructions.length⟩, emit_last _ _ _,
          hpre1.length_le, ?_, ?_⟩
        · rw [emit_instructions]
          simp [make_nil_length .OpPop rfl]
        · intro _
          refine ⟨e', ?_, ?_⟩
          · rw [emit_prev]
            exact he'
          · exact hpos'

/-- A successful statement-list compilation from an invariant state. -/
theorem compileStatements_post (l : List Statement) (c : Compiler)
    (hInv : Inv c) (c' : Compiler)
    (h : compileStatements c l = (c', none)) : ListPost c c' := by
  cases l with
  | nil =>
    simp only [compileStatements] at h
    rw [Prod.mk.injEq] at h
    obtain ⟨hX, -⟩ := h
    subst hX
    exact ⟨hInv, List.prefix_refl _, List.prefix_refl _, Or.inl rfl⟩
  | cons s rest =>
    simp only [compileStatements] at h
    rcases hs : compileStatement c s with ⟨c1, err1⟩
    rw [hs] at h
    cases err1 with
    | some err => simp [seqComp] at h
    | none =>
      simp only [seqComp] at h
      obtain ⟨hI1, hpre1, hcon1, e1, he1, hpos1, hfit1, hpcl1⟩ :=
        compileStatement_post s c hInv c1 hs
      obtain ⟨hI2, hpre2, hcon2, hbr⟩ :=
        compileStatements_post rest c1 hI1 c' h
      refine ⟨hI2, hpre1.trans hpre2, hcon1.trans hcon2, Or.inr ?_⟩
      rcases hbr with hbr | ⟨e2, he2, hpos2, hfit2, hpcl2⟩
      · subst hbr
        exact ⟨e1, he1, hpos1, hfit1, hpcl1⟩
      · refine ⟨e2, he2, by have := hpre1.length_le; omega, hfit2, ?_⟩
        intro hp
        obtain ⟨p, hp', hppos⟩ := hpcl2 hp
        exact ⟨p, hp', by have := hpre1.length_le; omega⟩

end

/-! ### Claim theorems -/

/-- C1: For every conditional expression with an alternative branch,
compiled successfully from any invariant compiler state: the
jump-if-not-truthy instruction (sitting at the offset reached after the
condition, i.e. at `c1.instructions.length`) ends up carrying as operand
the stream length measured immediately after the unconditional jump
emitted following the consequence — the offset of the instruction right
after that jump — and the unconditional jump (sitting at the offset
reached after the consequence and its retraction) ends up carrying as
operand the total stream length after the alternative has been
compiled. -/
theorem C1_if_else_backpatch
    (c c1 c3 c' : Compiler) (cond : Expression) (cons alt : List Statement)
    (hInv : Inv c)
    (hcond : compileExpression c cond = (c1, none))
    (hcons : compileStatements (c1.emit .OpJumpNotTruthy [9999]).1 cons
      = (c3, none))
    (h : compileExpression c (.If cond cons (some alt)) = (c', none)) :
    ((c'.instructions.drop c1.instructions.length).take 3
      = make .OpJumpNotTruthy
          [(c3.retractIfPop.emit .OpJump [9999]).1.instructions.length]) ∧
    ((c'.instructions.drop c3.retractIfPop.instructions.length).take 3
      = make .OpJump [c'.instructions.length]) := by
  have hPc : ExprPost c c1 := compileExpression_post cond c hInv c1 hcond
  have hPcons : ListPost (c1.emit .OpJumpNotTruthy [9999]).1 c3 :=
    compileStatements_post cons (c1.emit .OpJumpNotTruthy [9999]).1
      (Inv_emit c1 _ _ hPc.1 (make_one_length _ _ rfl)
        (fun hx => nomatch hx)) c3 hcons
  obtain ⟨-, hwinA, -, hwinC⟩ :=
    if_compile_anatomy c c1 c3 c' cond cons (some alt) hcond hPc hcons
      hPcons
      (fun a ha d c7 hd hcomp => by
        cases ha
        exact compileStatements_post _ d hd c7 hcomp) h
  constructor
  · rw [hwinA]
    have : (c3.retractIfPop.emit .OpJump [9999]).1.instructions.length
        = c3.retractIfPop.instructions.length + 3 := by
      rw [emit_instructions]
      simp [make_one_length3 Opcode.OpJump 9999 rfl]
    rw [this]
  · exact hwinC alt rfl

/-- C1 witness: the concrete conditional
`if (true) { 10 } else { 20 }` compiled from a fresh compiler;
the jump-if-not-truthy at offset 1 carries operand 10 (the offset right
after the jump at offset 7) and the jump carries operand 13 (the total
stream length after the alternative). -/
theorem C1_if_else_backpatch_witness :
    ((([9, 14, 0, 10, 0, 0, 0, 13, 0, 13, 0, 0, 1] : List Nat).drop 1).take 3
      = make .OpJumpNotTruthy [10]) ∧
    ((([9, 14, 0, 10, 0, 0, 0, 13, 0, 13, 0, 0, 1] : List Nat).drop 7).take 3
      = make .OpJump [13]) :=
  C1_if_else_backpatch Compiler.new
    { instructions := [9], constants := []
      last_instruction := some ⟨.OpTrue, 0⟩, previous_instruction := none }
    { instructions := [9, 14, 39, 15, 0, 0, 0, 1]
      constants := [.Integer 10]
      last_instruction := some ⟨.OpPop, 7⟩
      previous_instruction := some ⟨.OpConst, 4⟩ }
    { instructions := [9, 14, 0, 10, 0, 0, 0, 13, 0, 13, 0, 0, 1]
      constants := [.Integer 10, .Integer 20]
      last_instruction := some ⟨.OpConst, 10⟩
      previous_instruction := some ⟨.OpConst, 10⟩ }
    (.Literal (.Boolean true)) [.Expr (.Literal (.Integer 10))]
    [.Expr (.Literal (.Integer 20))] Inv_new rfl rfl rfl

/-- C2: For every conditional expression with no alternative branch,
compiled successfully from any invariant compiler state: an
unconditional jump is still emitted after the consequence (at the offset
reached after the consequence and its retraction), its patched operand
equals the offset of the instruction immediately following the jump
itself (a reachable no-op jump — indeed nothing follows it: the final
stream length is exactly that offset), and the jump-if-not-truthy
operand is re-patched to that same value. -/
theorem C2_if_no_alternative_noop_jump
    (c c1 c3 c' : Compiler) (cond : Expression) (cons : List Statement)
    (hInv : Inv c)
    (hcond : compileExpression c cond = (c1, none))
    (hcons : compileStatements (c1.emit .OpJumpNotTruthy [9999]).1 cons
      = (c3, none))
    (h : compileExpression c (.If cond cons none) = (c', none)) :
    ((c'.instructions.drop c3.retractIfPop.instructions.length).take 3
      = make .OpJump [c3.retractIfPop.instructions.length + 3]) ∧
    c'.instructions.length = c3.retractIfPop.instructions.length + 3 ∧
    ((c'.instructions.drop c1.instructions.length).take 3
      = make .OpJumpNotTruthy [c3.retractIfPop.instructions.length + 3]) := by
  have hPc : ExprPost c c1 := compileExpression_post cond c hInv c1 hcond
  have hPcons : ListPost (c1.emit .OpJumpNotTruthy [9999]).1 c3 :=
    compileStatements_post cons (c1.emit .OpJumpNotTruthy [9999]).1
      (Inv_emit c1 _ _ hPc.1 (make_one_length _ _ rfl)
        (fun hx => nomatch hx)) c3 hcons
  obtain ⟨-, hwinA, hnone, -⟩ :=
    if_compile_anatomy c c1 c3 c' cond cons none hcond hPc hcons hPcons
      (fun a ha => nomatch ha) h
  obtain ⟨hwinB, hlen⟩ := hnone rfl
  exact ⟨hwinB, hlen, hwinA⟩

/-- C2 witness: the concrete conditional `if (true) { 10 }` (no
alternative) compiled from a fresh compiler; the jump at offset 7
carries operand 10 = its own offset + its width — the very next
instruction slot, which is also the end of the stream — and the
jump-if-not-truthy at offset 1 is re-patched to the same 10. -/
theorem C2_if_no_alternative_noop_jump_witness :
    ((([9, 14, 0, 10, 0, 0, 0, 13, 0, 10] : List Nat).drop 7).take 3
      = make .OpJump [10]) ∧
    ([9, 14, 0, 10, 0, 0, 0, 13, 0, 10] : List Nat).length = 10 ∧
    ((([9, 14, 0, 10, 0, 0, 0, 13, 0, 10] : List Nat).drop 1).take 3
      = make .OpJumpNotTruthy [10]) :=
  C2_if_no_alternative_noop_jump Compiler.new
    { instructions := [9], constants := []
      last_instruction := some ⟨.OpTrue, 0⟩, previous_instruction := none }
    { instructions := [9, 14, 39, 15, 0, 0, 0, 1]
      constants := [.Integer 10]
      last_instruction := some ⟨.OpPop, 7⟩
      previous_instruction := some ⟨.OpConst, 4⟩ }
    { instructions := [9, 14, 0, 10, 0, 0, 0, 13, 0, 10]
      constants := [.Integer 10]
      last_instruction := some ⟨.OpJump, 7⟩
      previous_instruction := some ⟨.OpConst, 4⟩ }
    (.Literal (.Boolean true)) [.Expr (.Literal (.Integer 10))]
    Inv_new rfl rfl rfl

/-- C3: The retraction step used by the `If` arm after compiling the
consequence block (and likewise after the alternative block): whenever
the invariant holds — as it does in every state the compiler actually
reaches there — if the most recently emitted instruction is the discard
(`OpPop`), then its bytes (the single byte of the one-byte discard,
sitting exactly at the end of the stream) are removed from the end of
the stream and the previously recorded emitted instruction becomes the
new last-emitted record; and if the last emitted instruction is not a
discard, nothing at all is changed. -/
theorem C3_trailing_discard_retraction :
    (∀ cs : Compiler, Inv cs → cs.last_instruction_is .OpPop = true →
      ∃ e, cs.last_instruction = some e ∧ e.opcode = .OpPop ∧
        e.position + 1 = cs.instructions.length ∧
        cs.instructions[e.position]? = some (opByte .OpPop) ∧
        cs.retractIfPop = cs.remove_last_pop ∧
        cs.retractIfPop.instructions = cs.instructions.dropLast ∧
        cs.retractIfPop.last_instruction = cs.previous_instruction) ∧
    (∀ cs : Compiler, cs.last_instruction_is .OpPop = false →
      cs.retractIfPop = cs) := by
  constructor
  · intro cs hInv hgd
    obtain ⟨e, hlast, hpop⟩ := (last_is_true_iff cs .OpPop).mp hgd
    obtain ⟨hfit, hbyte⟩ := hInv.1 e hlast
    have hsz : instrSize e.opcode = 1 := by rw [hpop]; rfl
    have hret : cs.retractIfPop = cs.remove_last_pop := by
      rw [Compiler.retractIfPop, if_pos hgd]
    refine ⟨e, hlast, hpop, by omega, by rw [← hpop]; exact hbyte, hret,
      ?_, ?_⟩
    · rw [hret]
      rfl
    · rw [hret]
      rfl
  · intro cs hgd
    rw [Compiler.retractIfPop, hgd]
    rfl


theorem popState_Inv : Inv popState :=
  (compileStatements_post [.Expr (.Literal (.Integer 1))] Compiler.new
    Inv_new popState rfl).1

/-- C3 witness: after compiling the expression statement `1;` the last
emitted instruction is the discard at offset 3 and the retraction step
removes exactly its byte and restores the push-constant record; a fresh
compiler's last instruction is no discard and the step changes
nothing. -/
theorem C3_trailing_discard_retraction_witness :
    (∃ e, popState.last_instruction = some e ∧
      e.opcode = .OpPop ∧
      e.position + 1 = popState.instructions.length ∧
      popState.instructions[e.position]? = some (opByte .OpPop) ∧
      popState.retractIfPop = popState.remove_last_pop ∧
      popState.retractIfPop.instructions = popState.instructions.dropLast ∧
      popState.retractIfPop.last_instruction
        = popState.previous_instruction) ∧
    Compiler.new.retractIfPop = Compiler.new :=
  ⟨C3_trailing_discard_retraction.1 popState popState_Inv rfl,
    C3_trailing_discard_retraction.2 Compiler.new rfl⟩

/-- C10: `remove_last_pop` removes exactly one byte from the end of the
instruction stream and leaves every other byte unchanged; in any
invariant state in which `last_instruction_is` reports that the most
recently emitted instruction is the one-byte discard — the only
condition under which the conditional-compilation code invokes it — the
stream is non-empty, its final byte is exactly the discard's opcode
byte, so the retraction removes no byte of any other instruction and
never underflows. -/
theorem C10_remove_last_pop_safety
    (cs : Compiler) (hInv : Inv cs)
    (hgd : cs.last_instruction_is .OpPop = true) :
    cs.instructions ≠ [] ∧
    cs.remove_last_pop.instructions = cs.instructions.dropLast ∧
    cs.remove_last_pop.instructions.length + 1 = cs.instructions.length ∧
    cs.instructions.getLast? = some (opByte .OpPop) ∧
    (∀ i, i + 1 < cs.instructions.length →
      cs.remove_last_pop.instructions[i]? = cs.instructions[i]?) := by
  obtain ⟨e, hlast, hpop⟩ := (last_is_true_iff cs .OpPop).mp hgd
  obtain ⟨hfit, hbyte⟩ := hInv.1 e hlast
  have hsz : instrSize e.opcode = 1 := by rw [hpop]; rfl
  have hne : cs.instructions ≠ [] := by
    intro hempty
    rw [hempty] at hfit
    simp at hfit
    omega
  refine ⟨hne, rfl, ?_, ?_, ?_⟩
  · show cs.instructions.dropLast.length + 1 = cs.instructions.length
    rw [List.length_dropLast]
    omega
  · rw [List.getLast?_eq_getElem?]
    have hpos : e.position = cs.instructions.length - 1 := by omega
    rw [← hpos, ← hpop]
    exact hbyte
  · intro i hi
    exact getElem?_dropLast _ _ hi

/-- C10 witness: the state reached by compiling `1;` from a fresh
compiler has the discard as its last instruction; retracting removes
exactly the final byte (the discard's opcode byte) and keeps the three
bytes of the push-constant instruction intact. -/
theorem C10_remove_last_pop_safety_witness :
    popState.instructions ≠ [] ∧
    popState.remove_last_pop.instructions
      = popState.instructions.dropLast ∧
    popState.remove_last_pop.instructions.length + 1
      = popState.instructions.length ∧
    popState.instructions.getLast? = some (opByte .OpPop) ∧
    (∀ i, i + 1 < popState.instructions.length →
      popState.remove_last_pop.instructions[i]?
        = popState.instructions[i]?) :=
  C10_remove_last_pop_safety popState popState_Inv rfl

/-- C5: For every pair of operand expressions `a` and `b`, compiling the
infix expression `a < b` compiles the right operand `b` first, then the
left operand `a`, then emits the greater-than opcode — the whole
compilation is the very same state transformation as compiling `b > a`;
in particular compiling `1 < 2;` and `2 > 1;` yields byte-identical
instruction streams. -/
theorem C5_less_than_operand_swap :
    (∀ (c : Compiler) (a b : Expression),
      compileExpression c (.Infix a "<" b)
        = compileExpression c (.Infix b ">" a)) ∧
    (∀ (c : Compiler) (a b : Expression),
      compileOperands c a b "<"
        = seqComp (compileExpression c b) fun c1 =>
            compileExpression c1 a) ∧
    ((Compiler.new.compile (.Program ⟨[.Expr
        (.Infix (.Literal (.Integer 1)) "<" (.Literal (.Integer 2)))]⟩)
      ).1.instructions
      = (Compiler.new.compile (.Program ⟨[.Expr
          (.Infix (.Literal (.Integer 2)) ">" (.Literal (.Integer 1)))]⟩)
        ).1.instructions) := by
  refine ⟨?_, ?_, rfl⟩
  · intro c a b
    simp [compileExpression]
  · intro c a b
    rw [compileOperands, if_pos rfl]

/-- C7: Compiling the one-statement program `1 + 2;` yields exactly
push-constant(0), push-constant(1), add, discard with constant pool
`[1, 2]`; in general every infix expression first fully compiles its
operands (for every operator other than `<` the left operand strictly
before the right one) and only then emits the operator's opcode, and
every expression statement appends one discard instruction after its
expression. -/
theorem C7_program_one_plus_two
    : ((Compiler.new.compile (.Program ⟨[.Expr
        (.Infix (.Literal (.Integer 1)) "+" (.Literal (.Integer 2)))]⟩)).2
      = .ok { instructions := make .OpConst [0] ++ make .OpConst [1]
                ++ make .OpAdd [] ++ make .OpPop []
              constants := [.Integer 1, .Integer 2] }) ∧
    (∀ (c : Compiler) (a b : Expression) (op : Str),
      compileExpression c (.Infix a op b)
        = seqComp (compileOperands c a b op) fun c1 =>
            if op = "+" then ((c1.emit .OpAdd []).1, none)
            else if op = "-" then ((c1.emit .OpSub []).1, none)
            else if op = "*" then ((c1.emit .OpMul []).1, none)
            else if op = "/" then ((c1.emit .OpDiv []).1, none)
            else if op = ">" then ((c1.emit .OpGreaterThan []).1, none)
            else if op = "<" then ((c1.emit .OpGreaterThan []).1, none)
            else if op = "==" then ((c1.emit .OpEqual []).1, none)
            else if op = "!=" then ((c1.emit .OpNotEqual []).1, none)
            else (c1, some .unimplementedExpression)) ∧
    (∀ (c : Compiler) (a b : Expression) (op : Str), op ≠ "<" →
      compileOperands c a b op
        = seqComp (compileExpression c a) fun c1 =>
            compileExpression c1 b) ∧
    (∀ (c : Compiler) (e : Expression),
      compileStatement c (.Expr e)
        = seqComp (compileExpression c e) fun c1 =>
            ((c1.emit .OpPop []).1, none)) := by
  refine ⟨rfl, ?_, ?_, ?_⟩
  · intro c a b op
    simp only [compileExpression, compileOperands]
  · intro c a b op hop
    rw [compileOperands, if_neg hop]
  · intro c e
    simp only [compileStatement]

/-- C7 witness: the operand-order part at the concrete operator `+`
(which is not `<`) and concrete integer-literal operands. -/
theorem C7_program_one_plus_two_witness :
    ("+" : Str) ≠ "<" ∧
    compileOperands Compiler.new (.Literal (.Integer 1))
        (.Literal (.Integer 2)) "+"
      = seqComp (compileExpression Compiler.new (.Literal (.Integer 1)))
          fun c1 => compileExpression c1 (.Literal (.Integer 2)) :=
  ⟨by decide, C7_program_one_plus_two.2.2.1 Compiler.new
    (.Literal (.Integer 1)) (.Literal (.Integer 2)) "+" (by decide)⟩

/-- C8: Two independent `compile` calls on the same AST node, each from
a fresh compiler state, produce structurally equal results — the same
final compiler state and the same `Bytecode` value (identical
instruction bytes and identical constant pool contents in identical
order). -/
theorem C8_compile_deterministic (node : Node) (c₁ c₂ : Compiler)
    (h₁ : c₁ = Compiler.new) (h₂ : c₂ = Compiler.new) :
    c₁.compile node = c₂.compile node := by
  subst h₁
  subst h₂
  rfl

/-- C8 witness: the two fresh-compiler compilations of the program
`1 + 2;` agree. -/
theorem C8_compile_deterministic_witness :
    Compiler.new.compile (.Program ⟨[.Expr
        (.Infix (.Literal (.Integer 1)) "+" (.Literal (.Integer 2)))]⟩)
      = Compiler.new.compile (.Program ⟨[.Expr
          (.Infix (.Literal (.Integer 1)) "+" (.Literal (.Integer 2)))]⟩) :=
  C8_compile_deterministic
    (.Program ⟨[.Expr
      (.Infix (.Literal (.Integer 1)) "+" (.Literal (.Integer 2)))]⟩)
    Compiler.new Compiler.new rfl rfl

/-! ### Constant-pool monotonicity -/

theorem change_operand_constants (c : Compiler) (p o : Nat) :
    (c.change_operand p o).constants = c.constants := rfl

theorem retractIfPop_constants (c : Compiler) :
    c.retractIfPop.constants = c.constants := by
  rw [Compiler.retractIfPop]
  split <;> rfl

theorem seqComp_constants_mono (r : Compiler × Option CompErr)
    (f : Compiler → Compiler × Option CompErr) (c : Compiler)
    (h1 : c.constants <+: r.1.constants)
    (h2 : ∀ d, d.constants <+: (f d).1.constants) :
    c.constants <+: (seqComp r f).1.constants := by
  rcases r with ⟨d, err⟩
  cases err with
  | none => exact h1.trans (h2 d)
  | some e => exact h1

mutual

/-- Whatever `compile_expression` does — succeed or fail — the constant
pool only ever grows by appending: the old pool is a prefix of the new
one. -/
theorem compileExpression_constants_mono (e : Expression) (c : Compiler) :
    c.constants <+: (compileExpression c e).1.constants := by
  cases e with
  | Identifier v => exact List.prefix_refl _
  | Function p b => exact List.prefix_refl _
  | Call f a => exact List.prefix_refl _
  | Index l i => exact List.prefix_refl _
  | Literal lit =>
    cases lit with
    | Integer v => exact List.prefix_append _ _
    | Float => exact List.prefix_refl _
    | String v => exact List.prefix_refl _
    | Array els => exact List.prefix_refl _
    | Boolean b => cases b <;> exact List.prefix_refl _
  | Prefix operator right =>
    simp only [compileExpression]
    apply seqComp_constants_mono _ _ c
      (compileExpression_constants_mono right c)
    intro d
    split
    · exact List.prefix_refl _
    · split
      · exact List.prefix_refl _
      · exact List.prefix_refl _
  | Infix left operator right =>
    simp only [compileExpression]
    apply seqComp_constants_mono _ _ c
    · split
      · exact seqComp_constants_mono _ _ c
          (compileExpression_constants_mono right c)
          (fun d => compileExpression_constants_mono left d)
      · exact seqComp_constants_mono _ _ c
          (compileExpression_constants_mono left c)
          (fun d => compileExpression_constants_mono right d)
    · intro d
      repeat' split
      all_goals exact List.prefix_refl _
  | If cond cons alt =>
    cases alt with
    | none =>
      simp only [compileExpression]
      apply seqComp_constants_mono _ _ c
        (compileExpression_constants_mono cond c)
      intro c1
      apply seqComp_constants_mono _ _ c1
      · have h := compileStatements_constants_mono cons
          (c1.emit .OpJumpNotTruthy [9999]).1
        rw [emit_constants] at h
        exact h
      · intro c3
        simp only [change_operand_constants, emit_constants,
          retractIfPop_constants]
        exact List.prefix_refl _
    | some alt =>
      simp only [compileExpression]
      apply seqComp_constants_mono _ _ c
        (compileExpression_constants_mono cond c)
      intro c1
      apply seqComp_constants_mono _ _ c1
      · have h := compileStatements_constants_mono cons
          (c1.emit .OpJumpNotTruthy [9999]).1
        rw [emit_constants] at h
        exact h
      · intro c3
        apply seqComp_constants_mono _ _ c3
        · have h := compileStatements_constants_mono alt
            ((c3.retractIfPop.emit .OpJump [9999]).1.change_operand
              (c1.emit .OpJumpNotTruthy [9999]).2
              (c3.retractIfPop.emit .OpJump [9999]).1.instructions.length)
          rw [change_operand_constants, emit_constants,
            retractIfPop_constants] at h
          exact h
        · intro c7
          simp only [change_operand_constants, retractIfPop_constants]
          exact List.prefix_refl _

theorem compileStatement_constants_mono (s : Statement) (c : Compiler) :
    c.constants <+: (compileStatement c s).1.constants := by
  cases s with
  | Assign n v => exact List.prefix_refl _
  | Return r => exact compileExpression_constants_mono r c
  | Expr e =>
    simp only [compileStatement]
    apply seqComp_constants_mono _ _ c
      (compileExpression_constants_mono e c)
    intro d
    exact List.prefix_refl _

theorem compileStatements_constants_mono (l : List Statement)
    (c : Compiler) : c.constants <+: (compileStatements c l).1.constants := by
  cases l with
  | nil => exact List.prefix_refl _
  | cons s rest =>
    simp only [compileStatements]
    exact seqComp_constants_mono _ _ c
      (compileStatement_constants_mono s c)
      (fun d => compileStatements_constants_mono rest d)

end

/-- `compile` never removes a constant-pool entry, whether it succeeds
or fails: the old pool is a prefix of the final one. -/
theorem compile_constants_mono (n : Node) (c : Compiler) :
    c.constants <+: (c.compile n).1.constants := by
  cases n with
  | Program p =>
    simp only [Compiler.compile]
    rcases h : compileStatements c p.statements with ⟨c1, err⟩
    have := compileStatements_constants_mono p.statements c
    rw [h] at this
    cases err <;> exact this
  | Statement s =>
    simp only [Compiler.compile]
    rcases h : compileStatement c s with ⟨c1, err⟩
    have := compileStatement_constants_mono s c
    rw [h] at this
    cases err <;> exact this
  | Expression e =>
    simp only [Compiler.compile]
    rcases h : compileExpression c e with ⟨c1, err⟩
    have := compileExpression_constants_mono e c
    rw [h] at this
    cases err <;> exact this

/-- C6: `add_constant` always appends its value to the pool (no
deduplication) and returns the zero-based insertion index — the new
pool length minus one, which is the old pool length; no compiler
operation ever removes a pool entry (the pool before any compilation,
successful or failed, is a prefix of the pool after it), so indices stay
stable; and for any integer literal `n` compiled as a standalone
expression the constant pool is exactly `[n]`, with the single emitted
push-constant instruction referencing index 0. -/
theorem C6_constant_pool_append_only :
    (∀ (c : Compiler) (obj : Object),
      (c.add_constant obj).1.constants = c.constants ++ [obj] ∧
      (c.add_constant obj).2 = (c.constants ++ [obj]).length - 1 ∧
      (c.add_constant obj).2 = c.constants.length) ∧
    (∀ (n : Node) (c : Compiler),
      c.constants <+: (c.compile n).1.constants) ∧
    (∀ v : Int,
      (Compiler.new.compile (.Expression (.Literal (.Integer v)))).2
        = .ok { instructions := make .OpConst [0]
                constants := [.Integer v] } ∧
      ((Compiler.new.compile (.Expression (.Literal (.Integer v)))).1
        ).constants = [.Integer v]) := by
  refine ⟨?_, compile_constants_mono, ?_⟩
  · intro c obj
    refine ⟨rfl, rfl, ?_⟩
    simp [Compiler.add_constant]
  · intro v
    exact ⟨rfl, rfl⟩


theorem seqComp_isSome_left (r : Compiler × Option CompErr)
    (f : Compiler → Compiler × Option CompErr)
    (h : (r.2).isSome = true) : ((seqComp r f).2).isSome = true := by
  rcases r with ⟨d, err⟩
  cases err with
  | none => simp at h
  | some e => rfl

theorem seqComp_of_none (r : Compiler × Option CompErr)
    (f : Compiler → Compiler × Option CompErr) (d : Compiler)
    (h : r = (d, none)) : seqComp r f = f d := by
  rw [h]
  rfl

mutual

/-- An expression containing an unsupported construct never compiles:
the error component of the result is always set. -/
theorem exprUnsupported_fails (e : Expression) (c : Compiler)
    (h : exprUnsupported e = true) :
    ((compileExpression c e).2).isSome = true := by
  cases e with
  | Identifier v => rfl
  | Function p b => rfl
  | Call f a => rfl
  | Index l i => rfl
  | Literal lit =>
    cases lit with
    | Integer v => simp [exprUnsupported] at h
    | Boolean b => simp [exprUnsupported] at h
    | Float => rfl
    | String v => rfl
    | Array els => rfl
  | Prefix operator right =>
    simp only [exprUnsupported, Bool.or_eq_true] at h
    simp only [compileExpression]
    rcases h with h | h
    · exact seqComp_isSome_left _ _ (exprUnsupported_fails right c h)
    · simp only [Bool.not_eq_eq_eq_not, Bool.not_true, Bool.or_eq_false_iff,
        decide_eq_false_iff_not] at h
      obtain ⟨h1, h2⟩ := h
      rcases hr : compileExpression c right with ⟨cr, err⟩
      cases err with
      | some e =>
        rfl
      | none =>
        simp only [seqComp]
        rw [if_neg h1, if_neg h2]
        rfl
  | Infix left operator right =>
    simp only [exprUnsupported, Bool.or_eq_true] at h
    simp only [compileExpression]
    rcases h with (h | h) | h
    · -- the left operand is unsupported
      apply seqComp_isSome_left
      by_cases hop : operator = "<"
      · rw [if_pos hop]
        rcases hr : compileExpression c right with ⟨cr, err⟩
        cases err with
        | some e =>
          rfl
        | none =>
          simp only [seqComp]
          exact exprUnsupported_fails left cr h
      · rw [if_neg hop]
        exact seqComp_isSome_left _ _ (exprUnsupported_fails left c h)
    · -- the right operand is unsupported
      apply seqComp_isSome_left
      by_cases hop : operator = "<"
      · rw [if_pos hop]
        exact seqComp_isSome_left _ _ (exprUnsupported_fails right c h)
      · rw [if_neg hop]
        rcases hl : compileExpression c left with ⟨cl, err⟩
        cases err with
        | some e =>
          rfl
        | none =>
          simp only [seqComp]
          exact exprUnsupported_fails right cl h
    · -- the operator is unknown
      simp only [Bool.not_eq_eq_eq_not, Bool.not_true, Bool.or_eq_false_iff,
        decide_eq_false_iff_not] at h
      obtain ⟨⟨⟨⟨⟨⟨⟨h1, h2⟩, h3⟩, h4⟩, h5⟩, h6⟩, h7⟩, h8⟩ := h
      rcases hops : (if operator = "<" then
          seqComp (compileExpression c right) fun cr =>
            compileExpression cr left
        else
          seqComp (compileExpression c left) fun cl =>
            compileExpression cl right) with ⟨c1, err⟩
      cases err with
      | some e =>
        rfl
      | none =>
        simp only [seqComp]
        rw [if_neg h1, if_neg h2, if_neg h3,
          if_neg h4, if_neg h5, if_neg h6, if_neg h7, if_neg h8]
        rfl
  | If cond cons alt =>
    cases alt with
    | none =>
      simp only [exprUnsupported, Bool.or_eq_true] at h
      simp only [compileExpression]
      rcases h with h | h
      · exact seqComp_isSome_left _ _ (exprUnsupported_fails cond c h)
      · rcases hcond : compileExpression c cond with ⟨c1, err⟩
        cases err with
        | some e =>
          rfl
        | none =>
          simp only [seqComp]
          exact seqComp_isSome_left _ _
            (stmtsUnsupported_fails cons _ h)
    | some alt =>
      simp only [exprUnsupported, Bool.or_eq_true] at h
      simp only [compileExpression]
      rcases h with (h | h) | h
      · exact seqComp_isSome_left _ _ (exprUnsupported_fails cond c h)
      · rcases hcond : compileExpression c cond with ⟨c1, err⟩
        cases err with
        | some e =>
          rfl
        | none =>
          simp only [seqComp]
          exact seqComp_isSome_left _ _
            (stmtsUnsupported_fails cons _ h)
      · rcases hcond : compileExpression c cond with ⟨c1, err⟩
        cases err with
        | some e =>
          rfl
        | none =>
          simp only [seqComp]
          rcases hcons : compileStatements
              (c1.emit .OpJumpNotTruthy [9999]).1 cons with ⟨c3, err3⟩
          cases err3 with
          | some e =>
            rfl
          | none =>
            simp only [seqComp]
            exact seqComp_isSome_left _ _
              (stmtsUnsupported_fails alt _ h)

theorem stmtUnsupported_fails (s : Statement) (c : Compiler)
    (h : stmtUnsupported s = true) :
    ((compileStatement c s).2).isSome = true := by
  cases s with
  | Assign n v => rfl
  | Return r => exact exprUnsupported_fails r c h
  | Expr e =>
    simp only [compileStatement]
    exact seqComp_isSome_left _ _ (exprUnsupported_fails e c h)

theorem stmtsUnsupported_fails (l : List Statement) (c : Compiler)
    (h : stmtsUnsupported l = true) :
    ((compileStatements c l).2).isSome = true := by
  cases l with
  | nil => simp [stmtsUnsupported] at h
  | cons s rest =>
    simp only [stmtsUnsupported, Bool.or_eq_true] at h
    simp only [compileStatements]
    rcases h with h | h
    · exact seqComp_isSome_left _ _ (stmtUnsupported_fails s c h)
    · rcases hs : compileStatement c s with ⟨c1, err⟩
      cases err with
      | some e =>
        rfl
      | none =>
        simp only [seqComp]
        exact stmtsUnsupported_fails rest c1 h

end

/-- C4 (amended): For every AST containing an unsupported construct
(assignment statements; identifier, call, index, string, array, float,
or function-literal expressions; unknown prefix or infix operators),
`compile` fails with an `Unimplemented` error and returns no `Bytecode`
artifact; the compiler's internal buffers, however, may retain
instructions and constants emitted before the failure, observable to
the caller through `bytecode()`. -/
theorem C4_unimplemented_fails (n : Node) (c : Compiler)
    (h : nodeUnsupported n = true) :
    ∃ err, (c.compile n).2 = Except.error err := by
  cases n with
  | Program p =>
    simp only [Compiler.compile]
    rcases hl : compileStatements c p.statements with ⟨c1, err⟩
    have hf := stmtsUnsupported_fails p.statements c h
    rw [hl] at hf
    cases err with
    | none => simp at hf
    | some e => exact ⟨e, rfl⟩
  | Statement s =>
    simp only [Compiler.compile]
    rcases hl : compileStatement c s with ⟨c1, err⟩
    have hf := stmtUnsupported_fails s c h
    rw [hl] at hf
    cases err with
    | none => simp at hf
    | some e => exact ⟨e, rfl⟩
  | Expression e =>
    simp only [Compiler.compile]
    rcases hl : compileExpression c e with ⟨c1, err⟩
    have hf := exprUnsupported_fails e c h
    rw [hl] at hf
    cases err with
    | none => simp at hf
    | some er => exact ⟨er, rfl⟩

/-- C4 witness: compiling the standalone assignment statement
`x = 2;` (an unsupported construct) from a fresh compiler fails with an
error and yields no bytecode. -/
theorem C4_unimplemented_fails_witness :
    nodeUnsupported (.Statement (.Assign "x" (.Literal (.Integer 2))))
      = true ∧
    ∃ err, (Compiler.new.compile
      (.Statement (.Assign "x" (.Literal (.Integer 2))))).2
        = Except.error err :=
  ⟨rfl, C4_unimplemented_fails
    (.Statement (.Assign "x" (.Literal (.Integer 2)))) Compiler.new rfl⟩

/-- C4 counterexample: the claim's "produces no observable partial
mutation visible to the caller" fails.  Compiling the program
`1; x = 2;` from a fresh compiler stops at the assignment with an
`Unimplemented` error and returns no artifact, but the caller-owned
compiler retains the instructions and the constant emitted for the
first statement, observable through the public `bytecode()`: its
instruction stream is now `[0, 0, 0, 1]` (push-constant 0 then discard)
instead of the fresh compiler's empty stream. -/
theorem C4_partial_mutation_counterexample :
    (Compiler.new.compile (.Program ⟨[.Expr (.Literal (.Integer 1)),
        .Assign "x" (.Literal (.Integer 2))]⟩)).2
      = Except.error CompErr.unimplementedStatement ∧
    ((Compiler.new.compile (.Program ⟨[.Expr (.Literal (.Integer 1)),
        .Assign "x" (.Literal (.Integer 2))]⟩)).1).bytecode.instructions
      = [0, 0, 0, 1] ∧
    ((Compiler.new.compile (.Program ⟨[.Expr (.Literal (.Integer 1)),
        .Assign "x" (.Literal (.Integer 2))]⟩)).1).bytecode.constants
      = [.Integer 1] ∧
    Compiler.new.bytecode.instructions = [] ∧
    ([0, 0, 0, 1] : List Nat) ≠ [] :=
  ⟨rfl, rfl, rfl, rfl, by decide⟩


theorem digitOf_ne_newline (d : Nat) : digitOf d ≠ '\n' := by
  rcases d with _ | _ | _ | _ | _ | _ | _ | _ | _ | d <;>
    first
    | decide
    | (show ('9' : Char) ≠ '\n'; decide)

theorem decDigitsCore_newlines (fuel : Nat) :
    ∀ (n : Nat) (ds : List Char),
      (decDigitsCore fuel n ds).count '\n' = ds.count '\n' := by
  induction fuel with
  | zero => intro n ds; rfl
  | succ fuel ih =>
    intro n ds
    simp only [decDigitsCore]
    split
    · rw [List.count_cons_of_ne
        (fun hx => digitOf_ne_newline _ hx.symm)]
    · rw [ih, List.count_cons_of_ne
        (fun hx => digitOf_ne_newline _ hx.symm)]

theorem newlineCount_natDecimal (n : Nat) :
    newlineCount (natDecimal n) = 0 := by
  show (decDigitsCore (n + 1) n []).asString.data.count '\n' = 0
  rw [show (decDigitsCore (n + 1) n []).asString.data
    = decDigitsCore (n + 1) n [] from rfl]
  rw [decDigitsCore_newlines]
  rfl

theorem newlineCount_append (a b : Str) :
    newlineCount (a ++ b) = newlineCount a + newlineCount b := by
  show (a ++ b).data.count '\n' = _
  rw [show (a ++ b).data = a.data ++ b.data from rfl, List.count_append]
  rfl

theorem newlineCount_pad4 (n : Nat) : newlineCount (pad4 n) = 0 := by
  rw [pad4, newlineCount_append, newlineCount_natDecimal]
  show (List.replicate _ '0').count '\n' + 0 = 0
  rw [List.count_replicate]
  simp

theorem newlineCount_mnemonic (op : Opcode) :
    newlineCount (opcodeMnemonic op) = 0 := by
  cases op <;> rfl

theorem newlineCount_foldl (L : List Str) :
    ∀ acc : Str, newlineCount (L.foldl (fun r s => r ++ s) acc)
      = newlineCount acc + (L.map newlineCount).sum := by
  induction L with
  | nil => intro acc; simp
  | cons x xs ih =>
    intro acc
    simp only [List.foldl_cons, List.map_cons, List.sum_cons]
    rw [ih, newlineCount_append]
    omega

/-- Each rendered fragment holds exactly one newline. -/
theorem newlineCount_fragment (i b : Nat) :
    newlineCount (pad4 i ++ " " ++ opcodeMnemonic (byteToOpcode b) ++ "\n")
      = 1 := by
  rw [newlineCount_append, newlineCount_append, newlineCount_append,
    newlineCount_pad4, newlineCount_mnemonic]
  rfl

theorem sum_map_ones {α : Type} (L : List α) (f : α → Nat)
    (h : ∀ x ∈ L, f x = 1) : (L.map f).sum = L.length := by
  induction L with
  | nil => rfl
  | cons x xs ih =>
    simp only [List.map_cons, List.sum_cons, List.length_cons]
    rw [h x (by simp), ih (fun y hy => h y (by simp [hy]))]
    omega

/-- C9 (amended): the disassembly rendering of a `Bytecode` artifact
produces one line **per byte** of the instruction stream — not one line
per instruction: each byte `b` at index `i` yields the line
`pad4 i ++ " " ++ mnemonic (Opcode::from b) ++ "\n"`, operand bytes
included, and operands are not rendered specially. -/
theorem C9_debug_renders_per_byte (bc : Bytecode) :
    newlineCount (bytecodeDebug bc) = bc.instructions.length := by
  rw [bytecodeDebug, String.join, newlineCount_foldl]
  rw [show newlineCount "" = 0 from rfl, List.map_map]
  rw [sum_map_ones _ _ (by
    intro x hx
    exact newlineCount_fragment x.1 x.2)]
  rw [List.enum_length]
  omega

/-- C9 counterexample: the claim "one line for each instruction in
stream order (not for each byte)" is false.  The statement `1;`
compiles to exactly two instructions — a three-byte push-constant and a
one-byte discard, four bytes in all — yet the rendering consists of
four lines, one per byte, the two operand bytes of the push-constant
being (mis)rendered as if they were opcode bytes. -/
theorem C9_debug_per_instruction_counterexample :
    (Compiler.new.compile (.Statement (.Expr (.Literal (.Integer 1))))).2
      = Except.ok { instructions := make .OpConst [0] ++ make .OpPop []
                    constants := [.Integer 1] } ∧
    (make .OpConst [0] ++ make .OpPop [] : List Nat).length = 4 ∧
    bytecodeDebug { instructions := make .OpConst [0] ++ make .OpPop []
                    constants := [.Integer 1] }
      = "0000 OpConst\n0001 OpConst\n0002 OpConst\n0003 OpPop\n" ∧
    newlineCount (bytecodeDebug
      { instructions := make .OpConst [0] ++ make .OpPop []
        constants := [.Integer 1] }) = 4 ∧
    (4 : Nat) ≠ 2 :=
  ⟨rfl, rfl, rfl, rfl, by decide⟩

end Pine
